import Mathlib

/-!
A verification development for the SIL instruction-utility layer
(`lib/SIL/InstructionUtils.cpp`): value canonicalization ("strip"
functions), formal-access root finding, closure-origin resolution, and the
per-function ownership-dialect evaluator.

The IR value graph is modelled as an inductive tree: each value carries its
operand values as subterms.  This matches the source's assumption that the
operand graph is finite and acyclic (SSA form), and makes every traversal
of the source a terminating recursion here.  Node kinds that the source
inspects are constructors; every other kind is `unknownValue`.  SIL types
are modelled only as far as the source queries them (`SILTypeInfo`).
-/

set_option maxHeartbeats 1000000

/-- Function-type representation (`SILFunctionTypeRepresentation`); the
source only distinguishes `Block` from the rest. -/
inductive FunctionRep where
  | thick
  | thin
  | block
  | cFunctionPointer
  | method
deriving DecidableEq

/-- The fragment of a SIL value's type that the source queries:
`getOptionalObjectType`, `getAs<SILFunctionType>` (with representation and
`isReferenceCounted`), and the `BuiltinUnsafeValueBufferType` test of
`isPossibleFormalAccessBase`. -/
inductive SILTypeInfo where
  | functionType (rep : FunctionRep) (refCounted : Bool)
  | optionalType (payload : SILTypeInfo)
  | unsafeValueBufferType
  | otherType
deriving DecidableEq

/-- `SILFunction::isThunk()` result (`IsThunk_t`). -/
inductive ThunkKind where
  | notThunk
  | thunk
  | reabstractionThunk
deriving DecidableEq

/-- What the source reads off a referenced `SILFunction`. -/
structure FunInfo where
  thunkKind : ThunkKind
deriving DecidableEq

mutual

/-- A SIL value, as an operand tree.  Each constructor is a node kind the
source inspects; operand fields appear in the source's operand order, so
the first value field is `getOperand(0)`.

Block arguments (`SILArgument`) are modelled by the `phiArg*` constructors,
which carry the argument's index together with what
`stripSinglePredecessorArgs` queries about the parent block: whether a
single predecessor exists and, per its terminator kind, the argument list
supplied to this block (`phiArgBranch` for `br`, `phiArgCondBranch` for a
`cond_br` edge whose `getArgForDestBB` found the destination,
`phiArgCondBranchNullArg` when `getArgForDestBB` returned null,
`phiArgSwitchEnum` for a `switch_enum` terminator, `phiArgNoSinglePred`
for zero or several predecessors, `phiArgOtherTerm` for any other
terminator).  `functionArgument` is a `SILFunctionArgument` (the entry
block has no predecessor).

`init_block_storage_header` is modelled by three constructors recording
the outcome of the use-list queries `getSingleUserOfType` of
`findClosureStoredIntoBlock`: no single `project_block_storage` user of
the storage, no single `store` user of that projection, or a store whose
source is `src`. -/
inductive SILValue where
  | unknownValue (id : Nat) (ty : SILTypeInfo)
  | upcast (op : SILValue)
  | uncheckedRefCast (op : SILValue)
  | unconditionalCheckedCast (op : SILValue)
  | unconditionalCheckedCastValue (op : SILValue)
  | refToBridgeObject (op maskBits : SILValue)
  | bridgeObjectToRef (op : SILValue)
  | uncheckedTrivialBitCast (op : SILValue)
  | markDependence (op base : SILValue)
  | structElementAddr (op : SILValue)
  | tupleElementAddr (op : SILValue)
  | uncheckedTakeEnumDataAddr (op : SILValue)
  | structExtract (op : SILValue)
  | tupleExtract (op : SILValue)
  | uncheckedEnumData (op : SILValue)
  | indexAddr (base index : SILValue)
  | tailAddr (base count : SILValue)
  | indexRawPointer (base index : SILValue)
  | phiArgBranch (index : Nat) (branchArgs : SILValueList)
  | phiArgCondBranch (index : Nat) (argsForDest : SILValueList)
  | phiArgCondBranchNullArg (index : Nat)
  | phiArgSwitchEnum (index : Nat)
  | phiArgNoSinglePred (index : Nat)
  | phiArgOtherTerm (index : Nat)
  | functionArgument (id : Nat) (ty : SILTypeInfo)
  | builtinExpect (arg0 arg1 : SILValue)
  | beginBorrow (op : SILValue)
  | convertFunction (op : SILValue) (ty : SILTypeInfo)
  | copyValue (op : SILValue)
  | beginAccess (op : SILValue) (ty : SILTypeInfo)
  | copyBlock (op : SILValue) (ty : SILTypeInfo)
  | partialApply (callee : Option FunInfo) (args : SILValueList) (ty : SILTypeInfo)
  | enumInst (payload : SILValue) (ty : SILTypeInfo)
  | initBlockStorageNoProj (storage : SILValue) (ty : SILTypeInfo)
  | initBlockStorageNoStore (storage : SILValue) (ty : SILTypeInfo)
  | initBlockStorageStored (storage src : SILValue) (ty : SILTypeInfo)
  | projectBox (op : SILValue)
  | projectBlockStorage (op : SILValue)
  | markUninitialized (op : SILValue)
  | openExistentialAddr (op : SILValue)
  | uncheckedAddrCast (op : SILValue)
  | refElementAddr (op : SILValue) (ty : SILTypeInfo)
  | refTailAddr (op : SILValue)
  | globalAddr (globalIsLet : Option Bool) (ty : SILTypeInfo)
  | allocStack (declIsLet : Option Bool) (ty : SILTypeInfo)
  | allocBox (declIsLet : Option Bool) (ty : SILTypeInfo)
  | pointerToAddress (op : SILValue) (ty : SILTypeInfo)
  | openExistentialBox (op : SILValue)
  | projectExistentialBox (op : SILValue)
  | projectValueBuffer (op : SILValue)
  | initEnumDataAddr (op : SILValue)
  | initExistentialAddr (op : SILValue)
  | allocExistentialBox (ty : SILTypeInfo)
  | allocValueBuffer (op : SILValue)
  | silUndef

/-- An operand list (branch arguments, `partial_apply` arguments). -/
inductive SILValueList where
  | nil
  | cons (head : SILValue) (tail : SILValueList)

end

/-- The `i`-th element of an argument list (`getArg(i)`). -/
def SILValueList.getArg : SILValueList → Nat → Option SILValue
  | .nil, _ => none
  | .cons a _, 0 => some a
  | .cons _ l, n + 1 => l.getArg n

/-- Number of elements (`getNumArguments`). -/
def SILValueList.length : SILValueList → Nat
  | .nil => 0
  | .cons _ l => l.length + 1

theorem SILValueList.sizeOf_getArg :
    ∀ {l : SILValueList} {i : Nat} {a : SILValue},
      l.getArg i = some a → sizeOf a < sizeOf l
  | .cons b t, 0, a, h => by
    simp [getArg] at h
    subst h
    simp
    omega
  | .cons b t, n + 1, a, h => by
    simp [getArg] at h
    have := SILValueList.sizeOf_getArg h
    simp
    omega

namespace SILValue

/-- The argument a single-predecessor block's terminator supplies for this
block argument, when `stripSinglePredecessorArgs` can resolve it
(InstructionUtils.cpp:83-123): for a `br` terminator the argument at the
block argument's index, for a `cond_br` terminator the argument the edge
to this block supplies at that index; `none` when the value is not a block
argument, the block does not have exactly one predecessor, the terminator
is of any other kind, or `getArgForDestBB` returned null. -/
def singlePredTerminatorArg : SILValue → Option SILValue
  | phiArgBranch i args => args.getArg i
  | phiArgCondBranch i args => args.getArg i
  | _ => none

theorem sizeOf_singlePredTerminatorArg {V x : SILValue}
    (h : singlePredTerminatorArg V = some x) : sizeOf x < sizeOf V := by
  cases V <;> simp [singlePredTerminatorArg] at h <;>
    (have h2 := SILValueList.sizeOf_getArg h; simp; omega)

/-- `swift::stripSinglePredecessorArgs` (InstructionUtils.cpp:83-123):
while the value is a block argument whose block has a single predecessor
terminated by `br` or `cond_br`, replace it by the corresponding
terminator operand. -/
def stripSinglePredecessorArgs (V : SILValue) : SILValue :=
  match h : singlePredTerminatorArg V with
  | some x => stripSinglePredecessorArgs x
  | none => V
termination_by sizeOf V
decreasing_by
  exact sizeOf_singlePredTerminatorArg h

theorem stripSinglePredecessorArgs_of_some {V x : SILValue}
    (h : singlePredTerminatorArg V = some x) :
    stripSinglePredecessorArgs V = stripSinglePredecessorArgs x := by
  rw [stripSinglePredecessorArgs]
  split
  · rename_i y hy
    have h2 := h.symm.trans hy
    injection h2 with h2
    rw [h2]
  · rename_i hy
    rw [h] at hy
    cases hy

theorem stripSinglePredecessorArgs_of_none {V : SILValue}
    (h : singlePredTerminatorArg V = none) :
    stripSinglePredecessorArgs V = V := by
  rw [stripSinglePredecessorArgs]
  split
  · rename_i y hy
    rw [h] at hy
    cases hy
  · rfl

theorem stripSinglePredecessorArgs_le (V : SILValue) :
    stripSinglePredecessorArgs V = V ∨
      sizeOf (stripSinglePredecessorArgs V) < sizeOf V := by
  generalize hn : sizeOf V = n
  induction n using Nat.strong_induction_on generalizing V with
  | _ n ih =>
  subst hn
  cases h : singlePredTerminatorArg V with
  | none => exact Or.inl (stripSinglePredecessorArgs_of_none h)
  | some x =>
    right
    rw [stripSinglePredecessorArgs_of_some h]
    have hx := sizeOf_singlePredTerminatorArg h
    rcases ih (sizeOf x) hx x rfl with h2 | h2
    · rw [h2]
      exact hx
    · omega

theorem sizeOf_stripSinglePredecessorArgs_le (V : SILValue) :
    sizeOf (stripSinglePredecessorArgs V) ≤ sizeOf V := by
  rcases stripSinglePredecessorArgs_le V with h | h
  · rw [h]
  · omega

theorem singlePredTerminatorArg_strip (V : SILValue) :
    singlePredTerminatorArg (stripSinglePredecessorArgs V) = none := by
  generalize hn : sizeOf V = n
  induction n using Nat.strong_induction_on generalizing V with
  | _ n ih =>
  subst hn
  cases h : singlePredTerminatorArg V with
  | none =>
    rw [stripSinglePredecessorArgs_of_none h]
    exact h
  | some x =>
    rw [stripSinglePredecessorArgs_of_some h]
    exact ih (sizeOf x) (sizeOf_singlePredTerminatorArg h) x rfl

theorem stripSinglePredecessorArgs_idem (V : SILValue) :
    stripSinglePredecessorArgs (stripSinglePredecessorArgs V) =
      stripSinglePredecessorArgs V :=
  stripSinglePredecessorArgs_of_none (singlePredTerminatorArg_strip V)

end SILValue

namespace SILValue

/-- `isRCIdentityPreservingCast` (InstructionUtils.cpp:67-79): kinds whose
result has the same reference-counting identity as their operand. -/
def isRCIdentityPreservingCast : SILValue → Bool
  | upcast _ => true
  | uncheckedRefCast _ => true
  | unconditionalCheckedCast _ => true
  | unconditionalCheckedCastValue _ => true
  | refToBridgeObject _ _ => true
  | bridgeObjectToRef _ => true
  | _ => false

/-- One stripping step of `stripCasts` (InstructionUtils.cpp:144-148): for
an RC-identity-preserving cast, `unchecked_trivial_bit_cast` or
`mark_dependence`, its `getOperand(0)`; otherwise `none`. -/
def castOperandWithMarkDependence : SILValue → Option SILValue
  | upcast op => some op
  | uncheckedRefCast op => some op
  | unconditionalCheckedCast op => some op
  | unconditionalCheckedCastValue op => some op
  | refToBridgeObject op _ => some op
  | bridgeObjectToRef op => some op
  | uncheckedTrivialBitCast op => some op
  | markDependence op _ => some op
  | _ => none

/-- One stripping step of `stripCastsWithoutMarkDependence`
(InstructionUtils.cpp:129-133): as `castOperandWithMarkDependence` but
`mark_dependence` is left alone. -/
def castOperandWithoutMarkDependence : SILValue → Option SILValue
  | upcast op => some op
  | uncheckedRefCast op => some op
  | unconditionalCheckedCast op => some op
  | unconditionalCheckedCastValue op => some op
  | refToBridgeObject op _ => some op
  | bridgeObjectToRef op => some op
  | uncheckedTrivialBitCast op => some op
  | _ => none

theorem sizeOf_castOperandWithMarkDependence {v x : SILValue}
    (h : castOperandWithMarkDependence v = some x) : sizeOf x < sizeOf v := by
  cases v <;> simp [castOperandWithMarkDependence] at h <;>
    (subst h; simp) <;> omega

theorem sizeOf_castOperandWithoutMarkDependence {v x : SILValue}
    (h : castOperandWithoutMarkDependence v = some x) : sizeOf x < sizeOf v := by
  cases v <;> simp [castOperandWithoutMarkDependence] at h <;>
    (subst h; simp) <;> omega

/-- `swift::stripCasts` (InstructionUtils.cpp:140-154): repeatedly resolve
single-predecessor block arguments and strip RC-identity-preserving casts,
`unchecked_trivial_bit_cast` and `mark_dependence`. -/
def stripCasts (V : SILValue) : SILValue :=
  match h : castOperandWithMarkDependence (stripSinglePredecessorArgs V) with
  | some op => stripCasts op
  | none => stripSinglePredecessorArgs V
termination_by sizeOf V
decreasing_by
  have h1 := sizeOf_castOperandWithMarkDependence h
  have h2 := sizeOf_stripSinglePredecessorArgs_le V
  omega

/-- `swift::stripCastsWithoutMarkDependence` (InstructionUtils.cpp:125-138). -/
def stripCastsWithoutMarkDependence (V : SILValue) : SILValue :=
  match h : castOperandWithoutMarkDependence (stripSinglePredecessorArgs V) with
  | some op => stripCastsWithoutMarkDependence op
  | none => stripSinglePredecessorArgs V
termination_by sizeOf V
decreasing_by
  have h1 := sizeOf_castOperandWithoutMarkDependence h
  have h2 := sizeOf_stripSinglePredecessorArgs_le V
  omega

theorem stripCasts_of_some {V op : SILValue}
    (h : castOperandWithMarkDependence (stripSinglePredecessorArgs V) = some op) :
    stripCasts V = stripCasts op := by
  rw [stripCasts]
  split
  · rename_i y hy
    have h2 := h.symm.trans hy
    injection h2 with h2
    rw [h2]
  · rename_i hy
    rw [h] at hy
    cases hy

theorem stripCasts_of_none {V : SILValue}
    (h : castOperandWithMarkDependence (stripSinglePredecessorArgs V) = none) :
    stripCasts V = stripSinglePredecessorArgs V := by
  rw [stripCasts]
  split
  · rename_i y hy
    rw [h] at hy
    cases hy
  · rfl

theorem stripCasts_le (V : SILValue) :
    stripCasts V = V ∨ sizeOf (stripCasts V) < sizeOf V := by
  generalize hn : sizeOf V = n
  induction n using Nat.strong_induction_on generalizing V with
  | _ n ih =>
  subst hn
  cases h : castOperandWithMarkDependence (stripSinglePredecessorArgs V) with
  | none =>
    rw [stripCasts_of_none h]
    exact stripSinglePredecessorArgs_le V
  | some op =>
    right
    rw [stripCasts_of_some h]
    have h1 := sizeOf_castOperandWithMarkDependence h
    have h2 := sizeOf_stripSinglePredecessorArgs_le V
    have h3 : sizeOf op < sizeOf V := by omega
    rcases ih (sizeOf op) h3 op rfl with h4 | h4
    · rw [h4]
      exact h3
    · omega

theorem sizeOf_stripCasts_le (V : SILValue) :
    sizeOf (stripCasts V) ≤ sizeOf V := by
  rcases stripCasts_le V with h | h
  · rw [h]
  · omega

theorem stripCasts_fixed (V : SILValue) :
    stripSinglePredecessorArgs (stripCasts V) = stripCasts V ∧
      castOperandWithMarkDependence (stripCasts V) = none := by
  generalize hn : sizeOf V = n
  induction n using Nat.strong_induction_on generalizing V with
  | _ n ih =>
  subst hn
  cases h : castOperandWithMarkDependence (stripSinglePredecessorArgs V) with
  | none =>
    rw [stripCasts_of_none h]
    refine ⟨stripSinglePredecessorArgs_idem V, h⟩
  | some op =>
    rw [stripCasts_of_some h]
    have h1 := sizeOf_castOperandWithMarkDependence h
    have h2 := sizeOf_stripSinglePredecessorArgs_le V
    exact ih (sizeOf op) (by omega) op rfl

theorem stripCasts_idem (V : SILValue) :
    stripCasts (stripCasts V) = stripCasts V := by
  obtain ⟨h1, h2⟩ := stripCasts_fixed V
  have h3 : castOperandWithMarkDependence
      (stripSinglePredecessorArgs (stripCasts V)) = none := by
    rw [h1]
    exact h2
  rw [stripCasts_of_none h3, h1]

theorem stripCastsWithoutMarkDependence_of_some {V op : SILValue}
    (h : castOperandWithoutMarkDependence (stripSinglePredecessorArgs V) = some op) :
    stripCastsWithoutMarkDependence V = stripCastsWithoutMarkDependence op := by
  rw [stripCastsWithoutMarkDependence]
  split
  · rename_i y hy
    have h2 := h.symm.trans hy
    injection h2 with h2
    rw [h2]
  · rename_i hy
    rw [h] at hy
    cases hy

theorem stripCastsWithoutMarkDependence_of_none {V : SILValue}
    (h : castOperandWithoutMarkDependence (stripSinglePredecessorArgs V) = none) :
    stripCastsWithoutMarkDependence V = stripSinglePredecessorArgs V := by
  rw [stripCastsWithoutMarkDependence]
  split
  · rename_i y hy
    rw [h] at hy
    cases hy
  · rfl

theorem stripCastsWithoutMarkDependence_le (V : SILValue) :
    stripCastsWithoutMarkDependence V = V ∨
      sizeOf (stripCastsWithoutMarkDependence V) < sizeOf V := by
  generalize hn : sizeOf V = n
  induction n using Nat.strong_induction_on generalizing V with
  | _ n ih =>
  subst hn
  cases h : castOperandWithoutMarkDependence (stripSinglePredecessorArgs V) with
  | none =>
    rw [stripCastsWithoutMarkDependence_of_none h]
    exact stripSinglePredecessorArgs_le V
  | some op =>
    right
    rw [stripCastsWithoutMarkDependence_of_some h]
    have h1 := sizeOf_castOperandWithoutMarkDependence h
    have h2 := sizeOf_stripSinglePredecessorArgs_le V
    have h3 : sizeOf op < sizeOf V := by omega
    rcases ih (sizeOf op) h3 op rfl with h4 | h4
    · rw [h4]
      exact h3
    · omega

theorem sizeOf_stripCastsWithoutMarkDependence_le (V : SILValue) :
    sizeOf (stripCastsWithoutMarkDependence V) ≤ sizeOf V := by
  rcases stripCastsWithoutMarkDependence_le V with h | h
  · rw [h]
  · omega

theorem stripCastsWithoutMarkDependence_fixed (V : SILValue) :
    stripSinglePredecessorArgs (stripCastsWithoutMarkDependence V) =
        stripCastsWithoutMarkDependence V ∧
      castOperandWithoutMarkDependence (stripCastsWithoutMarkDependence V) = none := by
  generalize hn : sizeOf V = n
  induction n using Nat.strong_induction_on generalizing V with
  | _ n ih =>
  subst hn
  cases h : castOperandWithoutMarkDependence (stripSinglePredecessorArgs V) with
  | none =>
    rw [stripCastsWithoutMarkDependence_of_none h]
    refine ⟨stripSinglePredecessorArgs_idem V, h⟩
  | some op =>
    rw [stripCastsWithoutMarkDependence_of_some h]
    have h1 := sizeOf_castOperandWithoutMarkDependence h
    have h2 := sizeOf_stripSinglePredecessorArgs_le V
    exact ih (sizeOf op) (by omega) op rfl

theorem stripCastsWithoutMarkDependence_idem (V : SILValue) :
    stripCastsWithoutMarkDependence (stripCastsWithoutMarkDependence V) =
      stripCastsWithoutMarkDependence V := by
  obtain ⟨h1, h2⟩ := stripCastsWithoutMarkDependence_fixed V
  have h3 : castOperandWithoutMarkDependence
      (stripSinglePredecessorArgs (stripCastsWithoutMarkDependence V)) = none := by
    rw [h1]
    exact h2
  rw [stripCastsWithoutMarkDependence_of_none h3, h1]

end SILValue

namespace SILValue

/-- `swift::stripUpCasts` strips only `upcast` (InstructionUtils.cpp:162):
the operand of an `upcast` node. -/
def upcastOperand : SILValue → Option SILValue
  | upcast op => some op
  | _ => none

theorem sizeOf_upcastOperand {v x : SILValue}
    (h : upcastOperand v = some x) : sizeOf x < sizeOf v := by
  cases v <;> simp [upcastOperand] at h <;> (subst h; simp) <;> omega

/-- The loop of `swift::stripUpCasts` (InstructionUtils.cpp:162-163):
while the value is an `upcast`, resolve single-predecessor block arguments
of its operand. -/
def stripUpCastsLoop (V : SILValue) : SILValue :=
  match h : upcastOperand V with
  | some op => stripUpCastsLoop (stripSinglePredecessorArgs op)
  | none => V
termination_by sizeOf V
decreasing_by
  have h1 := sizeOf_upcastOperand h
  have h2 := sizeOf_stripSinglePredecessorArgs_le op
  omega

theorem stripUpCastsLoop_of_some {V op : SILValue}
    (h : upcastOperand V = some op) :
    stripUpCastsLoop V = stripUpCastsLoop (stripSinglePredecessorArgs op) := by
  rw [stripUpCastsLoop]
  split
  · rename_i y hy
    have h2 := h.symm.trans hy
    injection h2 with h2
    rw [h2]
  · rename_i hy
    rw [h] at hy
    cases hy

theorem stripUpCastsLoop_of_none {V : SILValue}
    (h : upcastOperand V = none) : stripUpCastsLoop V = V := by
  rw [stripUpCastsLoop]
  split
  · rename_i y hy
    rw [h] at hy
    cases hy
  · rfl

/-- `swift::stripUpCasts` (InstructionUtils.cpp:156-166).  The source
asserts its precondition (the value is of class or class-metatype type);
the type precondition is outside this model. -/
def stripUpCasts (V : SILValue) : SILValue :=
  stripUpCastsLoop (stripSinglePredecessorArgs V)

theorem stripUpCastsLoop_le (V : SILValue) :
    sizeOf (stripUpCastsLoop V) ≤ sizeOf V := by
  generalize hn : sizeOf V = n
  induction n using Nat.strong_induction_on generalizing V with
  | _ n ih =>
  subst hn
  cases h : upcastOperand V with
  | none =>
    rw [stripUpCastsLoop_of_none h]
  | some op =>
    rw [stripUpCastsLoop_of_some h]
    have h1 := sizeOf_upcastOperand h
    have h2 := sizeOf_stripSinglePredecessorArgs_le op
    have h3 := ih (sizeOf (stripSinglePredecessorArgs op)) (by omega)
      (stripSinglePredecessorArgs op) rfl
    omega

theorem sizeOf_stripUpCasts_le (V : SILValue) :
    sizeOf (stripUpCasts V) ≤ sizeOf V := by
  have h1 := stripUpCastsLoop_le (stripSinglePredecessorArgs V)
  have h2 := sizeOf_stripSinglePredecessorArgs_le V
  rw [stripUpCasts]
  omega

theorem stripUpCastsLoop_fixed (V : SILValue)
    (hV : stripSinglePredecessorArgs V = V) :
    stripSinglePredecessorArgs (stripUpCastsLoop V) = stripUpCastsLoop V ∧
      upcastOperand (stripUpCastsLoop V) = none := by
  generalize hn : sizeOf V = n
  induction n using Nat.strong_induction_on generalizing V with
  | _ n ih =>
  subst hn
  cases h : upcastOperand V with
  | none =>
    rw [stripUpCastsLoop_of_none h]
    exact ⟨hV, h⟩
  | some op =>
    rw [stripUpCastsLoop_of_some h]
    have h1 := sizeOf_upcastOperand h
    have h2 := sizeOf_stripSinglePredecessorArgs_le op
    exact ih (sizeOf (stripSinglePredecessorArgs op)) (by omega)
      (stripSinglePredecessorArgs op) (stripSinglePredecessorArgs_idem op) rfl

theorem stripUpCasts_idem (V : SILValue) :
    stripUpCasts (stripUpCasts V) = stripUpCasts V := by
  obtain ⟨h1, h2⟩ :=
    stripUpCastsLoop_fixed (stripSinglePredecessorArgs V)
      (stripSinglePredecessorArgs_idem V)
  rw [stripUpCasts, stripUpCasts, h1, stripUpCastsLoop_of_none h2]

/-- One stripping step of `swift::stripClassCasts`
(InstructionUtils.cpp:168-182): the operand of an `upcast` or an
`unconditional_checked_cast`. -/
def classCastOperand : SILValue → Option SILValue
  | upcast op => some op
  | unconditionalCheckedCast op => some op
  | _ => none

theorem sizeOf_classCastOperand {v x : SILValue}
    (h : classCastOperand v = some x) : sizeOf x < sizeOf v := by
  cases v <;> simp [classCastOperand] at h <;> (subst h; simp) <;> omega

/-- `swift::stripClassCasts` (InstructionUtils.cpp:168-182): no trivial
bitcasts and no block-argument resolution here. -/
def stripClassCasts (V : SILValue) : SILValue :=
  match h : classCastOperand V with
  | some op => stripClassCasts op
  | none => V
termination_by sizeOf V
decreasing_by
  exact sizeOf_classCastOperand h

theorem stripClassCasts_of_some {V op : SILValue}
    (h : classCastOperand V = some op) : stripClassCasts V = stripClassCasts op := by
  rw [stripClassCasts]
  split
  · rename_i y hy
    have h2 := h.symm.trans hy
    injection h2 with h2
    rw [h2]
  · rename_i hy
    rw [h] at hy
    cases hy

theorem stripClassCasts_of_none {V : SILValue}
    (h : classCastOperand V = none) : stripClassCasts V = V := by
  rw [stripClassCasts]
  split
  · rename_i y hy
    rw [h] at hy
    cases hy
  · rfl

theorem stripClassCasts_le (V : SILValue) :
    stripClassCasts V = V ∨ sizeOf (stripClassCasts V) < sizeOf V := by
  generalize hn : sizeOf V = n
  induction n using Nat.strong_induction_on generalizing V with
  | _ n ih =>
  subst hn
  cases h : classCastOperand V with
  | none => exact Or.inl (stripClassCasts_of_none h)
  | some op =>
    right
    rw [stripClassCasts_of_some h]
    have h1 := sizeOf_classCastOperand h
    rcases ih (sizeOf op) h1 op rfl with h4 | h4
    · rw [h4]
      exact h1
    · omega

theorem sizeOf_stripClassCasts_le (V : SILValue) :
    sizeOf (stripClassCasts V) ≤ sizeOf V := by
  rcases stripClassCasts_le V with h | h
  · rw [h]
  · omega

theorem stripClassCasts_fixed (V : SILValue) : classCastOperand (stripClassCasts V) = none := by
  generalize hn : sizeOf V = n
  induction n using Nat.strong_induction_on generalizing V with
  | _ n ih =>
  subst hn
  cases h : classCastOperand V with
  | none =>
    rw [stripClassCasts_of_none h]
    exact h
  | some op =>
    rw [stripClassCasts_of_some h]
    exact ih (sizeOf op) (sizeOf_classCastOperand h) op rfl

theorem stripClassCasts_idem (V : SILValue) : stripClassCasts (stripClassCasts V) = stripClassCasts V :=
  stripClassCasts_of_none (stripClassCasts_fixed V)


/-- Modelled from the spec: `Projection::isAddressProjection`.  The real
classifier lives in `swift/SIL/Projection.h`, which is not part of this
repository snapshot; spec §3 defines address projections as the unary
struct-field, tuple-element and enum-payload address projections. -/
def isAddressProjection : SILValue → Bool
  | structElementAddr _ => true
  | tupleElementAddr _ => true
  | uncheckedTakeEnumDataAddr _ => true
  | _ => false

/-- Modelled from the spec: the `getOperand(0)` of a node satisfying
`Projection::isAddressProjection` (see `isAddressProjection`). -/
def addressProjectionOperand : SILValue → Option SILValue
  | structElementAddr op => some op
  | tupleElementAddr op => some op
  | uncheckedTakeEnumDataAddr op => some op
  | _ => none

theorem sizeOf_addressProjectionOperand {v x : SILValue}
    (h : addressProjectionOperand v = some x) : sizeOf x < sizeOf v := by
  cases v <;> simp [addressProjectionOperand] at h <;> (subst h; simp) <;> omega

/-- `swift::stripAddressProjections` (InstructionUtils.cpp:184-191):
repeatedly resolve single-predecessor block arguments and strip address
projections. -/
def stripAddressProjections (V : SILValue) : SILValue :=
  match h : addressProjectionOperand (stripSinglePredecessorArgs V) with
  | some op => stripAddressProjections op
  | none => stripSinglePredecessorArgs V
termination_by sizeOf V
decreasing_by
  have h1 := sizeOf_addressProjectionOperand h
  have h2 := sizeOf_stripSinglePredecessorArgs_le V
  omega

theorem stripAddressProjections_of_some {V op : SILValue}
    (h : addressProjectionOperand (stripSinglePredecessorArgs V) = some op) :
    stripAddressProjections V = stripAddressProjections op := by
  rw [stripAddressProjections]
  split
  · rename_i y hy
    have h2 := h.symm.trans hy
    injection h2 with h2
    rw [h2]
  · rename_i hy
    rw [h] at hy
    cases hy

theorem stripAddressProjections_of_none {V : SILValue}
    (h : addressProjectionOperand (stripSinglePredecessorArgs V) = none) :
    stripAddressProjections V = stripSinglePredecessorArgs V := by
  rw [stripAddressProjections]
  split
  · rename_i y hy
    rw [h] at hy
    cases hy
  · rfl

theorem stripAddressProjections_le (V : SILValue) :
    stripAddressProjections V = V ∨ sizeOf (stripAddressProjections V) < sizeOf V := by
  generalize hn : sizeOf V = n
  induction n using Nat.strong_induction_on generalizing V with
  | _ n ih =>
  subst hn
  cases h : addressProjectionOperand (stripSinglePredecessorArgs V) with
  | none =>
    rw [stripAddressProjections_of_none h]
    exact stripSinglePredecessorArgs_le V
  | some op =>
    right
    rw [stripAddressProjections_of_some h]
    have h1 := sizeOf_addressProjectionOperand h
    have h2 := sizeOf_stripSinglePredecessorArgs_le V
    have h3 : sizeOf op < sizeOf V := by omega
    rcases ih (sizeOf op) h3 op rfl with h4 | h4
    · rw [h4]
      exact h3
    · omega

theorem sizeOf_stripAddressProjections_le (V : SILValue) :
    sizeOf (stripAddressProjections V) ≤ sizeOf V := by
  rcases stripAddressProjections_le V with h | h
  · rw [h]
  · omega

theorem stripAddressProjections_fixed (V : SILValue) :
    stripSinglePredecessorArgs (stripAddressProjections V) = stripAddressProjections V ∧
      addressProjectionOperand (stripAddressProjections V) = none := by
  generalize hn : sizeOf V = n
  induction n using Nat.strong_induction_on generalizing V with
  | _ n ih =>
  subst hn
  cases h : addressProjectionOperand (stripSinglePredecessorArgs V) with
  | none =>
    rw [stripAddressProjections_of_none h]
    exact ⟨stripSinglePredecessorArgs_idem V, h⟩
  | some op =>
    rw [stripAddressProjections_of_some h]
    have h1 := sizeOf_addressProjectionOperand h
    have h2 := sizeOf_stripSinglePredecessorArgs_le V
    exact ih (sizeOf op) (by omega) op rfl

theorem stripAddressProjections_idem (V : SILValue) : stripAddressProjections (stripAddressProjections V) = stripAddressProjections V := by
  obtain ⟨h1, h2⟩ := stripAddressProjections_fixed V
  have h3 : addressProjectionOperand (stripSinglePredecessorArgs (stripAddressProjections V)) = none := by
    rw [h1]
    exact h2
  rw [stripAddressProjections_of_none h3, h1]


/-- Modelled from the spec: `Projection::isObjectProjection` — the value
projections over register-form aggregates (spec §3), mirroring the unary
address projections. -/
def isObjectProjection : SILValue → Bool
  | structExtract _ => true
  | tupleExtract _ => true
  | uncheckedEnumData _ => true
  | _ => false

/-- Modelled from the spec: the `getOperand(0)` of a node satisfying
`Projection::isObjectProjection` (see `isObjectProjection`). -/
def objectProjectionOperand : SILValue → Option SILValue
  | structExtract op => some op
  | tupleExtract op => some op
  | uncheckedEnumData op => some op
  | _ => none

theorem sizeOf_objectProjectionOperand {v x : SILValue}
    (h : objectProjectionOperand v = some x) : sizeOf x < sizeOf v := by
  cases v <;> simp [objectProjectionOperand] at h <;> (subst h; simp) <;> omega

/-- `swift::stripValueProjections` (InstructionUtils.cpp:205-212). -/
def stripValueProjections (V : SILValue) : SILValue :=
  match h : objectProjectionOperand (stripSinglePredecessorArgs V) with
  | some op => stripValueProjections op
  | none => stripSinglePredecessorArgs V
termination_by sizeOf V
decreasing_by
  have h1 := sizeOf_objectProjectionOperand h
  have h2 := sizeOf_stripSinglePredecessorArgs_le V
  omega

theorem stripValueProjections_of_some {V op : SILValue}
    (h : objectProjectionOperand (stripSinglePredecessorArgs V) = some op) :
    stripValueProjections V = stripValueProjections op := by
  rw [stripValueProjections]
  split
  · rename_i y hy
    have h2 := h.symm.trans hy
    injection h2 with h2
    rw [h2]
  · rename_i hy
    rw [h] at hy
    cases hy

theorem stripValueProjections_of_none {V : SILValue}
    (h : objectProjectionOperand (stripSinglePredecessorArgs V) = none) :
    stripValueProjections V = stripSinglePredecessorArgs V := by
  rw [stripValueProjections]
  split
  · rename_i y hy
    rw [h] at hy
    cases hy
  · rfl

theorem stripValueProjections_le (V : SILValue) :
    stripValueProjections V = V ∨ sizeOf (stripValueProjections V) < sizeOf V := by
  generalize hn : sizeOf V = n
  induction n using Nat.strong_induction_on generalizing V with
  | _ n ih =>
  subst hn
  cases h : objectProjectionOperand (stripSinglePredecessorArgs V) with
  | none =>
    rw [stripValueProjections_of_none h]
    exact stripSinglePredecessorArgs_le V
  | some op =>
    right
    rw [stripValueProjections_of_some h]
    have h1 := sizeOf_objectProjectionOperand h
    have h2 := sizeOf_stripSinglePredecessorArgs_le V
    have h3 : sizeOf op < sizeOf V := by omega
    rcases ih (sizeOf op) h3 op rfl with h4 | h4
    · rw [h4]
      exact h3
    · omega

theorem sizeOf_stripValueProjections_le (V : SILValue) :
    sizeOf (stripValueProjections V) ≤ sizeOf V := by
  rcases stripValueProjections_le V with h | h
  · rw [h]
  · omega

theorem stripValueProjections_fixed (V : SILValue) :
    stripSinglePredecessorArgs (stripValueProjections V) = stripValueProjections V ∧
      objectProjectionOperand (stripValueProjections V) = none := by
  generalize hn : sizeOf V = n
  induction n using Nat.strong_induction_on generalizing V with
  | _ n ih =>
  subst hn
  cases h : objectProjectionOperand (stripSinglePredecessorArgs V) with
  | none =>
    rw [stripValueProjections_of_none h]
    exact ⟨stripSinglePredecessorArgs_idem V, h⟩
  | some op =>
    rw [stripValueProjections_of_some h]
    have h1 := sizeOf_objectProjectionOperand h
    have h2 := sizeOf_stripSinglePredecessorArgs_le V
    exact ih (sizeOf op) (by omega) op rfl

theorem stripValueProjections_idem (V : SILValue) : stripValueProjections (stripValueProjections V) = stripValueProjections V := by
  obtain ⟨h1, h2⟩ := stripValueProjections_fixed V
  have h3 : objectProjectionOperand (stripSinglePredecessorArgs (stripValueProjections V)) = none := by
    rw [h1]
    exact h2
  rw [stripValueProjections_of_none h3, h1]


/-- The base operand of an indexing instruction
(`IndexingInst::getBase`): `index_addr`, `tail_addr`,
`index_raw_pointer`. -/
def indexingOperand : SILValue → Option SILValue
  | indexAddr b _ => some b
  | tailAddr b _ => some b
  | indexRawPointer b _ => some b
  | _ => none

/-- `isa<IndexingInst>`. -/
def isIndexingInst (v : SILValue) : Bool :=
  (indexingOperand v).isSome

theorem sizeOf_indexingOperand {v x : SILValue}
    (h : indexingOperand v = some x) : sizeOf x < sizeOf v := by
  cases v <;> simp [indexingOperand] at h <;> (subst h; simp) <;> omega

/-- `swift::stripIndexingInsts` (InstructionUtils.cpp:214-220): follow the
declared base operand of indexing instructions; no block-argument
resolution. -/
def stripIndexingInsts (V : SILValue) : SILValue :=
  match h : indexingOperand V with
  | some b => stripIndexingInsts b
  | none => V
termination_by sizeOf V
decreasing_by
  exact sizeOf_indexingOperand h

theorem stripIndexingInsts_of_some {V op : SILValue}
    (h : indexingOperand V = some op) : stripIndexingInsts V = stripIndexingInsts op := by
  rw [stripIndexingInsts]
  split
  · rename_i y hy
    have h2 := h.symm.trans hy
    injection h2 with h2
    rw [h2]
  · rename_i hy
    rw [h] at hy
    cases hy

theorem stripIndexingInsts_of_none {V : SILValue}
    (h : indexingOperand V = none) : stripIndexingInsts V = V := by
  rw [stripIndexingInsts]
  split
  · rename_i y hy
    rw [h] at hy
    cases hy
  · rfl

theorem stripIndexingInsts_le (V : SILValue) :
    stripIndexingInsts V = V ∨ sizeOf (stripIndexingInsts V) < sizeOf V := by
  generalize hn : sizeOf V = n
  induction n using Nat.strong_induction_on generalizing V with
  | _ n ih =>
  subst hn
  cases h : indexingOperand V with
  | none => exact Or.inl (stripIndexingInsts_of_none h)
  | some op =>
    right
    rw [stripIndexingInsts_of_some h]
    have h1 := sizeOf_indexingOperand h
    rcases ih (sizeOf op) h1 op rfl with h4 | h4
    · rw [h4]
      exact h1
    · omega

theorem sizeOf_stripIndexingInsts_le (V : SILValue) :
    sizeOf (stripIndexingInsts V) ≤ sizeOf V := by
  rcases stripIndexingInsts_le V with h | h
  · rw [h]
  · omega

theorem stripIndexingInsts_fixed (V : SILValue) : indexingOperand (stripIndexingInsts V) = none := by
  generalize hn : sizeOf V = n
  induction n using Nat.strong_induction_on generalizing V with
  | _ n ih =>
  subst hn
  cases h : indexingOperand V with
  | none =>
    rw [stripIndexingInsts_of_none h]
    exact h
  | some op =>
    rw [stripIndexingInsts_of_some h]
    exact ih (sizeOf op) (sizeOf_indexingOperand h) op rfl

theorem stripIndexingInsts_idem (V : SILValue) : stripIndexingInsts (stripIndexingInsts V) = stripIndexingInsts V :=
  stripIndexingInsts_of_none (stripIndexingInsts_fixed V)


/-- One stripping step of `swift::stripConvertFunctions`
(InstructionUtils.cpp:284-292): the operand of a `convert_function`. -/
def convertFunctionOperand : SILValue → Option SILValue
  | convertFunction op _ => some op
  | _ => none

theorem sizeOf_convertFunctionOperand {v x : SILValue}
    (h : convertFunctionOperand v = some x) : sizeOf x < sizeOf v := by
  cases v <;> simp [convertFunctionOperand] at h <;> (subst h; simp) <;> omega

/-- `swift::stripConvertFunctions` (InstructionUtils.cpp:284-292). -/
def stripConvertFunctions (V : SILValue) : SILValue :=
  match h : convertFunctionOperand V with
  | some op => stripConvertFunctions op
  | none => V
termination_by sizeOf V
decreasing_by
  exact sizeOf_convertFunctionOperand h

theorem stripConvertFunctions_of_some {V op : SILValue}
    (h : convertFunctionOperand V = some op) : stripConvertFunctions V = stripConvertFunctions op := by
  rw [stripConvertFunctions]
  split
  · rename_i y hy
    have h2 := h.symm.trans hy
    injection h2 with h2
    rw [h2]
  · rename_i hy
    rw [h] at hy
    cases hy

theorem stripConvertFunctions_of_none {V : SILValue}
    (h : convertFunctionOperand V = none) : stripConvertFunctions V = V := by
  rw [stripConvertFunctions]
  split
  · rename_i y hy
    rw [h] at hy
    cases hy
  · rfl

theorem stripConvertFunctions_le (V : SILValue) :
    stripConvertFunctions V = V ∨ sizeOf (stripConvertFunctions V) < sizeOf V := by
  generalize hn : sizeOf V = n
  induction n using Nat.strong_induction_on generalizing V with
  | _ n ih =>
  subst hn
  cases h : convertFunctionOperand V with
  | none => exact Or.inl (stripConvertFunctions_of_none h)
  | some op =>
    right
    rw [stripConvertFunctions_of_some h]
    have h1 := sizeOf_convertFunctionOperand h
    rcases ih (sizeOf op) h1 op rfl with h4 | h4
    · rw [h4]
      exact h1
    · omega

theorem sizeOf_stripConvertFunctions_le (V : SILValue) :
    sizeOf (stripConvertFunctions V) ≤ sizeOf V := by
  rcases stripConvertFunctions_le V with h | h
  · rw [h]
  · omega

theorem stripConvertFunctions_fixed (V : SILValue) : convertFunctionOperand (stripConvertFunctions V) = none := by
  generalize hn : sizeOf V = n
  induction n using Nat.strong_induction_on generalizing V with
  | _ n ih =>
  subst hn
  cases h : convertFunctionOperand V with
  | none =>
    rw [stripConvertFunctions_of_none h]
    exact h
  | some op =>
    rw [stripConvertFunctions_of_some h]
    exact ih (sizeOf op) (sizeOf_convertFunctionOperand h) op rfl

theorem stripConvertFunctions_idem (V : SILValue) : stripConvertFunctions (stripConvertFunctions V) = stripConvertFunctions V :=
  stripConvertFunctions_of_none (stripConvertFunctions_fixed V)


/-- `swift::stripExpectIntrinsic` (InstructionUtils.cpp:222-229): if the
value is a call of the `llvm.expect` branch-prediction builtin, its first
argument; otherwise the value unchanged.  One-shot: no loop. -/
def stripExpectIntrinsic : SILValue → SILValue
  | builtinExpect a _ => a
  | v => v

/-- `swift::stripBorrow` (InstructionUtils.cpp:231-235): if the value is a
`begin_borrow`, its operand; otherwise the value unchanged.  One-shot. -/
def stripBorrow : SILValue → SILValue
  | beginBorrow op => op
  | v => v

end SILValue

namespace SILValue

/-- `getNumOperands` of the modelled node: the number of operand fields
carried by the constructor.  `init_block_storage_header` has two operands
in SIL (block storage and invoke function; only the storage is modelled
here), and a `partial_apply` has its callee plus its applied arguments.
The `src` field of `initBlockStorageStored` records a use-list query
result, not an operand, so it is not counted. -/
def getNumOperands : SILValue → Nat
  | unknownValue _ _ => 0
  | upcast _ => 1
  | uncheckedRefCast _ => 1
  | unconditionalCheckedCast _ => 1
  | unconditionalCheckedCastValue _ => 1
  | refToBridgeObject _ _ => 2
  | bridgeObjectToRef _ => 1
  | uncheckedTrivialBitCast _ => 1
  | markDependence _ _ => 2
  | structElementAddr _ => 1
  | tupleElementAddr _ => 1
  | uncheckedTakeEnumDataAddr _ => 1
  | structExtract _ => 1
  | tupleExtract _ => 1
  | uncheckedEnumData _ => 1
  | indexAddr _ _ => 2
  | tailAddr _ _ => 2
  | indexRawPointer _ _ => 2
  | phiArgBranch _ _ => 0
  | phiArgCondBranch _ _ => 0
  | phiArgCondBranchNullArg _ => 0
  | phiArgSwitchEnum _ => 0
  | phiArgNoSinglePred _ => 0
  | phiArgOtherTerm _ => 0
  | functionArgument _ _ => 0
  | builtinExpect _ _ => 2
  | beginBorrow _ => 1
  | convertFunction _ _ => 1
  | copyValue _ => 1
  | beginAccess _ _ => 1
  | copyBlock _ _ => 1
  | partialApply _ args _ => 1 + args.length
  | enumInst _ _ => 1
  | initBlockStorageNoProj _ _ => 2
  | initBlockStorageNoStore _ _ => 2
  | initBlockStorageStored _ _ _ => 2
  | projectBox _ => 1
  | projectBlockStorage _ => 1
  | markUninitialized _ => 1
  | openExistentialAddr _ => 1
  | uncheckedAddrCast _ => 1
  | refElementAddr _ _ => 1
  | refTailAddr _ => 1
  | globalAddr _ _ => 0
  | allocStack _ _ => 0
  | allocBox _ _ => 0
  | pointerToAddress _ _ => 1
  | openExistentialBox _ => 1
  | projectExistentialBox _ => 1
  | projectValueBuffer _ => 1
  | initEnumDataAddr _ => 1
  | initExistentialAddr _ => 1
  | allocExistentialBox _ => 0
  | allocValueBuffer _ => 1
  | silUndef => 0

theorem getNumOperands_of_addressProjection {v op : SILValue}
    (h : addressProjectionOperand v = some op) : getNumOperands v = 1 := by
  cases v <;> simp [addressProjectionOperand] at h <;> rfl

/-- `swift::stripUnaryAddressProjections` (InstructionUtils.cpp:193-203):
as `stripAddressProjections`, but a projection with more than one operand
is not stripped.  Under the spec's classifier every address projection is
unary, so the operand-count guard never fires. -/
def stripUnaryAddressProjections (V : SILValue) : SILValue :=
  match h : addressProjectionOperand (stripSinglePredecessorArgs V) with
  | some op =>
    if getNumOperands (stripSinglePredecessorArgs V) > 1 then
      stripSinglePredecessorArgs V
    else stripUnaryAddressProjections op
  | none => stripSinglePredecessorArgs V
termination_by sizeOf V
decreasing_by
  have h1 := sizeOf_addressProjectionOperand h
  have h2 := sizeOf_stripSinglePredecessorArgs_le V
  omega

theorem stripUnaryAddressProjections_of_some {V op : SILValue}
    (h : addressProjectionOperand (stripSinglePredecessorArgs V) = some op) :
    stripUnaryAddressProjections V = stripUnaryAddressProjections op := by
  rw [stripUnaryAddressProjections]
  split
  · rename_i y hy
    have h2 := h.symm.trans hy
    injection h2 with h2
    subst h2
    rw [if_neg]
    rw [getNumOperands_of_addressProjection hy]
    omega
  · rename_i hy
    rw [h] at hy
    cases hy

theorem stripUnaryAddressProjections_of_none {V : SILValue}
    (h : addressProjectionOperand (stripSinglePredecessorArgs V) = none) :
    stripUnaryAddressProjections V = stripSinglePredecessorArgs V := by
  rw [stripUnaryAddressProjections]
  split
  · rename_i y hy
    rw [h] at hy
    cases hy
  · rfl

theorem stripUnaryAddressProjections_le (V : SILValue) :
    stripUnaryAddressProjections V = V ∨
      sizeOf (stripUnaryAddressProjections V) < sizeOf V := by
  generalize hn : sizeOf V = n
  induction n using Nat.strong_induction_on generalizing V with
  | _ n ih =>
  subst hn
  cases h : addressProjectionOperand (stripSinglePredecessorArgs V) with
  | none =>
    rw [stripUnaryAddressProjections_of_none h]
    exact stripSinglePredecessorArgs_le V
  | some op =>
    right
    rw [stripUnaryAddressProjections_of_some h]
    have h1 := sizeOf_addressProjectionOperand h
    have h2 := sizeOf_stripSinglePredecessorArgs_le V
    have h3 : sizeOf op < sizeOf V := by omega
    rcases ih (sizeOf op) h3 op rfl with h4 | h4
    · rw [h4]
      exact h3
    · omega

theorem sizeOf_stripUnaryAddressProjections_le (V : SILValue) :
    sizeOf (stripUnaryAddressProjections V) ≤ sizeOf V := by
  rcases stripUnaryAddressProjections_le V with h | h
  · rw [h]
  · omega

theorem stripUnaryAddressProjections_fixed (V : SILValue) :
    stripSinglePredecessorArgs (stripUnaryAddressProjections V) =
        stripUnaryAddressProjections V ∧
      addressProjectionOperand (stripUnaryAddressProjections V) = none := by
  generalize hn : sizeOf V = n
  induction n using Nat.strong_induction_on generalizing V with
  | _ n ih =>
  subst hn
  cases h : addressProjectionOperand (stripSinglePredecessorArgs V) with
  | none =>
    rw [stripUnaryAddressProjections_of_none h]
    exact ⟨stripSinglePredecessorArgs_idem V, h⟩
  | some op =>
    rw [stripUnaryAddressProjections_of_some h]
    have h1 := sizeOf_addressProjectionOperand h
    have h2 := sizeOf_stripSinglePredecessorArgs_le V
    exact ih (sizeOf op) (by omega) op rfl

theorem stripUnaryAddressProjections_idem (V : SILValue) :
    stripUnaryAddressProjections (stripUnaryAddressProjections V) =
      stripUnaryAddressProjections V := by
  obtain ⟨h1, h2⟩ := stripUnaryAddressProjections_fixed V
  have h3 : addressProjectionOperand
      (stripSinglePredecessorArgs (stripUnaryAddressProjections V)) = none := by
    rw [h1]
    exact h2
  rw [stripUnaryAddressProjections_of_none h3, h1]

end SILValue

namespace SILValue

theorem stripSinglePredecessorArgs_eq_self_iff (V : SILValue) :
    stripSinglePredecessorArgs V = V ↔ singlePredTerminatorArg V = none := by
  constructor
  · intro h
    cases hs : singlePredTerminatorArg V with
    | none => rfl
    | some x =>
      have h1 := sizeOf_singlePredTerminatorArg hs
      have h2 := sizeOf_stripSinglePredecessorArgs_le x
      rw [stripSinglePredecessorArgs_of_some hs] at h
      have h3 : sizeOf (stripSinglePredecessorArgs x) = sizeOf V := by rw [h]
      omega
  · exact stripSinglePredecessorArgs_of_none

theorem stripCasts_eq_self_iff (V : SILValue) :
    stripCasts V = V ↔
      (singlePredTerminatorArg V = none ∧
        castOperandWithMarkDependence V = none) := by
  constructor
  · intro h
    have hsspa : stripSinglePredecessorArgs V = V := by
      have h1 := sizeOf_stripSinglePredecessorArgs_le V
      rcases stripSinglePredecessorArgs_le V with h2 | h2
      · exact h2
      · exfalso
        cases hc : castOperandWithMarkDependence (stripSinglePredecessorArgs V) with
        | none =>
          rw [stripCasts_of_none hc] at h
          have h5 : sizeOf (stripSinglePredecessorArgs V) = sizeOf V := by rw [h]
          omega
        | some op =>
          rw [stripCasts_of_some hc] at h
          have h3 := sizeOf_castOperandWithMarkDependence hc
          have h4 := sizeOf_stripCasts_le op
          have h5 : sizeOf (stripCasts op) = sizeOf V := by rw [h]
          omega
    refine ⟨(stripSinglePredecessorArgs_eq_self_iff V).mp hsspa, ?_⟩
    cases hc : castOperandWithMarkDependence V with
    | none => rfl
    | some op =>
      have hc2 : castOperandWithMarkDependence (stripSinglePredecessorArgs V) =
          some op := by rw [hsspa]; exact hc
      rw [stripCasts_of_some hc2] at h
      have h3 := sizeOf_castOperandWithMarkDependence hc
      have h4 := sizeOf_stripCasts_le op
      have h5 : sizeOf (stripCasts op) = sizeOf V := by rw [h]
      omega
  · intro ⟨h1, h2⟩
    have hsspa := stripSinglePredecessorArgs_of_none h1
    rw [stripCasts_of_none (by rw [hsspa]; exact h2)]
    exact hsspa

theorem stripCastsWithoutMarkDependence_eq_self_iff (V : SILValue) :
    stripCastsWithoutMarkDependence V = V ↔
      (singlePredTerminatorArg V = none ∧
        castOperandWithoutMarkDependence V = none) := by
  constructor
  · intro h
    have hsspa : stripSinglePredecessorArgs V = V := by
      have h1 := sizeOf_stripSinglePredecessorArgs_le V
      rcases stripSinglePredecessorArgs_le V with h2 | h2
      · exact h2
      · exfalso
        cases hc : castOperandWithoutMarkDependence (stripSinglePredecessorArgs V) with
        | none =>
          rw [stripCastsWithoutMarkDependence_of_none hc] at h
          have h5 : sizeOf (stripSinglePredecessorArgs V) = sizeOf V := by rw [h]
          omega
        | some op =>
          rw [stripCastsWithoutMarkDependence_of_some hc] at h
          have h3 := sizeOf_castOperandWithoutMarkDependence hc
          have h4 := sizeOf_stripCastsWithoutMarkDependence_le op
          have h5 : sizeOf (stripCastsWithoutMarkDependence op) = sizeOf V := by rw [h]
          omega
    refine ⟨(stripSinglePredecessorArgs_eq_self_iff V).mp hsspa, ?_⟩
    cases hc : castOperandWithoutMarkDependence V with
    | none => rfl
    | some op =>
      have hc2 : castOperandWithoutMarkDependence (stripSinglePredecessorArgs V) =
          some op := by rw [hsspa]; exact hc
      rw [stripCastsWithoutMarkDependence_of_some hc2] at h
      have h3 := sizeOf_castOperandWithoutMarkDependence hc
      have h4 := sizeOf_stripCastsWithoutMarkDependence_le op
      have h5 : sizeOf (stripCastsWithoutMarkDependence op) = sizeOf V := by rw [h]
      omega
  · intro ⟨h1, h2⟩
    have hsspa := stripSinglePredecessorArgs_of_none h1
    rw [stripCastsWithoutMarkDependence_of_none (by rw [hsspa]; exact h2)]
    exact hsspa

theorem stripAddressProjections_eq_self_iff (V : SILValue) :
    stripAddressProjections V = V ↔
      (singlePredTerminatorArg V = none ∧
        addressProjectionOperand V = none) := by
  constructor
  · intro h
    have hsspa : stripSinglePredecessorArgs V = V := by
      have h1 := sizeOf_stripSinglePredecessorArgs_le V
      rcases stripSinglePredecessorArgs_le V with h2 | h2
      · exact h2
      · exfalso
        cases hc : addressProjectionOperand (stripSinglePredecessorArgs V) with
        | none =>
          rw [stripAddressProjections_of_none hc] at h
          have h5 : sizeOf (stripSinglePredecessorArgs V) = sizeOf V := by rw [h]
          omega
        | some op =>
          rw [stripAddressProjections_of_some hc] at h
          have h3 := sizeOf_addressProjectionOperand hc
          have h4 := sizeOf_stripAddressProjections_le op
          have h5 : sizeOf (stripAddressProjections op) = sizeOf V := by rw [h]
          omega
    refine ⟨(stripSinglePredecessorArgs_eq_self_iff V).mp hsspa, ?_⟩
    cases hc : addressProjectionOperand V with
    | none => rfl
    | some op =>
      have hc2 : addressProjectionOperand (stripSinglePredecessorArgs V) =
          some op := by rw [hsspa]; exact hc
      rw [stripAddressProjections_of_some hc2] at h
      have h3 := sizeOf_addressProjectionOperand hc
      have h4 := sizeOf_stripAddressProjections_le op
      have h5 : sizeOf (stripAddressProjections op) = sizeOf V := by rw [h]
      omega
  · intro ⟨h1, h2⟩
    have hsspa := stripSinglePredecessorArgs_of_none h1
    rw [stripAddressProjections_of_none (by rw [hsspa]; exact h2)]
    exact hsspa

theorem stripIndexingInsts_eq_self_iff (V : SILValue) :
    stripIndexingInsts V = V ↔ indexingOperand V = none := by
  constructor
  · intro h
    cases hc : indexingOperand V with
    | none => rfl
    | some op =>
      rw [stripIndexingInsts_of_some hc] at h
      have h3 := sizeOf_indexingOperand hc
      have h4 := sizeOf_stripIndexingInsts_le op
      have h5 : sizeOf (stripIndexingInsts op) = sizeOf V := by rw [h]
      omega
  · exact stripIndexingInsts_of_none

/-- The loop body of `swift::getUnderlyingObject`
(InstructionUtils.cpp:29): strip casts, then address projections, then
indexing instructions. -/
def underlyingObjectStep (V : SILValue) : SILValue :=
  stripIndexingInsts (stripAddressProjections (stripCasts V))

theorem underlyingObjectStep_le (V : SILValue) :
    underlyingObjectStep V = V ∨
      sizeOf (underlyingObjectStep V) < sizeOf V := by
  by_cases he : underlyingObjectStep V = V
  · exact Or.inl he
  right
  have ha := stripCasts_le V
  have hb := stripAddressProjections_le (stripCasts V)
  have hc := stripIndexingInsts_le (stripAddressProjections (stripCasts V))
  have h1 := sizeOf_stripCasts_le V
  have h2 := sizeOf_stripAddressProjections_le (stripCasts V)
  have h3 := sizeOf_stripIndexingInsts_le (stripAddressProjections (stripCasts V))
  simp only [underlyingObjectStep] at he ⊢
  rcases ha with ha | ha
  · rcases hb with hb | hb
    · rcases hc with hc | hc
      · exact absurd (by rw [hc, hb, ha]) he
      · omega
    · omega
  · omega

theorem underlyingObjectStep_eq_self_iff (V : SILValue) :
    underlyingObjectStep V = V ↔
      (singlePredTerminatorArg V = none ∧
        castOperandWithMarkDependence V = none ∧
        addressProjectionOperand V = none ∧
        indexingOperand V = none) := by
  constructor
  · intro h
    have hsize : sizeOf (underlyingObjectStep V) = sizeOf V := by rw [h]
    simp only [underlyingObjectStep] at hsize
    have hsc : stripCasts V = V := by
      rcases stripCasts_le V with h1 | h1
      · exact h1
      · have hB := sizeOf_stripAddressProjections_le (stripCasts V)
        have hC := sizeOf_stripIndexingInsts_le
          (stripAddressProjections (stripCasts V))
        omega
    rw [hsc] at hsize
    have hsap : stripAddressProjections V = V := by
      rcases stripAddressProjections_le V with h1 | h1
      · exact h1
      · have hC := sizeOf_stripIndexingInsts_le (stripAddressProjections V)
        omega
    rw [hsap] at hsize
    have hsii : stripIndexingInsts V = V := by
      rcases stripIndexingInsts_le V with h1 | h1
      · exact h1
      · omega
    obtain ⟨h1, h2⟩ := (stripCasts_eq_self_iff V).mp hsc
    obtain ⟨h3, h4⟩ := (stripAddressProjections_eq_self_iff V).mp hsap
    exact ⟨h1, h2, h4, (stripIndexingInsts_eq_self_iff V).mp hsii⟩
  · intro ⟨h1, h2, h3, h4⟩
    have hsc := (stripCasts_eq_self_iff V).mpr ⟨h1, h2⟩
    have hsap := (stripAddressProjections_eq_self_iff V).mpr ⟨h1, h3⟩
    have hsii := (stripIndexingInsts_eq_self_iff V).mpr h4
    simp only [underlyingObjectStep]
    rw [hsc, hsap, hsii]

/-- Computable fixed-point test for the `getUnderlyingObject` loop: no
single-predecessor block argument to resolve, no strippable cast, no
address projection, no indexing instruction.  Equivalent to the source's
identity test `V2 == V` (`isUnderlyingObjectFixpoint_iff`). -/
def isUnderlyingObjectFixpoint (V : SILValue) : Bool :=
  (singlePredTerminatorArg V).isNone &&
    (castOperandWithMarkDependence V).isNone &&
    (addressProjectionOperand V).isNone &&
    (indexingOperand V).isNone

theorem isUnderlyingObjectFixpoint_iff (V : SILValue) :
    isUnderlyingObjectFixpoint V = true ↔ underlyingObjectStep V = V := by
  rw [underlyingObjectStep_eq_self_iff]
  simp [isUnderlyingObjectFixpoint, Option.isNone_iff_eq_none, and_assoc]

/-- `swift::getUnderlyingObject` (InstructionUtils.cpp:27-34): iterate
the step to a fixed point.  The source's identity test `V2 == V` is
implemented by the equivalent computable test `isUnderlyingObjectFixpoint`
(a step result is the value itself or a strict subterm). -/
def getUnderlyingObject (V : SILValue) : SILValue :=
  if h : isUnderlyingObjectFixpoint V then V
  else getUnderlyingObject (underlyingObjectStep V)
termination_by sizeOf V
decreasing_by
  have h2 : ¬underlyingObjectStep V = V := fun hc =>
    h ((isUnderlyingObjectFixpoint_iff V).mpr hc)
  rcases underlyingObjectStep_le V with h1 | h1
  · exact absurd h1 h2
  · exact h1

theorem getUnderlyingObject_of_eq {V : SILValue} (h : underlyingObjectStep V = V) :
    getUnderlyingObject V = V := by
  rw [getUnderlyingObject, dif_pos ((isUnderlyingObjectFixpoint_iff V).mpr h)]

theorem getUnderlyingObject_of_ne {V : SILValue} (h : ¬underlyingObjectStep V = V) :
    getUnderlyingObject V = getUnderlyingObject (underlyingObjectStep V) := by
  rw [getUnderlyingObject, dif_neg]
  intro hc
  exact h ((isUnderlyingObjectFixpoint_iff V).mp hc)

theorem getUnderlyingObject_fixpoint (V : SILValue) :
    underlyingObjectStep (getUnderlyingObject V) = getUnderlyingObject V := by
  generalize hn : sizeOf V = n
  induction n using Nat.strong_induction_on generalizing V with
  | _ n ih =>
  subst hn
  by_cases h : underlyingObjectStep V = V
  · rw [getUnderlyingObject_of_eq h]
    exact h
  · rw [getUnderlyingObject_of_ne h]
    have h1 := underlyingObjectStep_le V
    rcases h1 with h1 | h1
    · exact absurd h1 h
    · exact ih (sizeOf (underlyingObjectStep V)) h1 (underlyingObjectStep V) rfl

theorem getUnderlyingObject_idem (V : SILValue) :
    getUnderlyingObject (getUnderlyingObject V) = getUnderlyingObject V :=
  getUnderlyingObject_of_eq (getUnderlyingObject_fixpoint V)

theorem sizeOf_getUnderlyingObject_le (V : SILValue) :
    sizeOf (getUnderlyingObject V) ≤ sizeOf V := by
  generalize hn : sizeOf V = n
  induction n using Nat.strong_induction_on generalizing V with
  | _ n ih =>
  subst hn
  by_cases h : underlyingObjectStep V = V
  · rw [getUnderlyingObject_of_eq h]
  · rw [getUnderlyingObject_of_ne h]
    rcases underlyingObjectStep_le V with h1 | h1
    · exact absurd h1 h
    · have h2 := ih (sizeOf (underlyingObjectStep V)) h1 (underlyingObjectStep V) rfl
      omega


/-- The loop body of `swift::getUnderlyingObjectStopAtMarkDependence`
(InstructionUtils.cpp:60): as `underlyingObjectStep` but `mark_dependence`
is not stripped. -/
def underlyingObjectStopAtMDStep (V : SILValue) : SILValue :=
  stripIndexingInsts (stripAddressProjections (stripCastsWithoutMarkDependence V))

theorem underlyingObjectStopAtMDStep_le (V : SILValue) :
    underlyingObjectStopAtMDStep V = V ∨
      sizeOf (underlyingObjectStopAtMDStep V) < sizeOf V := by
  by_cases he : underlyingObjectStopAtMDStep V = V
  · exact Or.inl he
  right
  have ha := stripCastsWithoutMarkDependence_le V
  have hb := stripAddressProjections_le (stripCastsWithoutMarkDependence V)
  have hc := stripIndexingInsts_le
    (stripAddressProjections (stripCastsWithoutMarkDependence V))
  have h1 := sizeOf_stripCastsWithoutMarkDependence_le V
  have h2 := sizeOf_stripAddressProjections_le (stripCastsWithoutMarkDependence V)
  have h3 := sizeOf_stripIndexingInsts_le
    (stripAddressProjections (stripCastsWithoutMarkDependence V))
  simp only [underlyingObjectStopAtMDStep] at he ⊢
  rcases ha with ha | ha
  · rcases hb with hb | hb
    · rcases hc with hc | hc
      · exact absurd (by rw [hc, hb, ha]) he
      · omega
    · omega
  · omega

theorem underlyingObjectStopAtMDStep_eq_self_iff (V : SILValue) :
    underlyingObjectStopAtMDStep V = V ↔
      (singlePredTerminatorArg V = none ∧
        castOperandWithoutMarkDependence V = none ∧
        addressProjectionOperand V = none ∧
        indexingOperand V = none) := by
  constructor
  · intro h
    have hsize : sizeOf (underlyingObjectStopAtMDStep V) = sizeOf V := by rw [h]
    simp only [underlyingObjectStopAtMDStep] at hsize
    have hsc : stripCastsWithoutMarkDependence V = V := by
      rcases stripCastsWithoutMarkDependence_le V with h1 | h1
      · exact h1
      · have hB := sizeOf_stripAddressProjections_le
          (stripCastsWithoutMarkDependence V)
        have hC := sizeOf_stripIndexingInsts_le
          (stripAddressProjections (stripCastsWithoutMarkDependence V))
        omega
    rw [hsc] at hsize
    have hsap : stripAddressProjections V = V := by
      rcases stripAddressProjections_le V with h1 | h1
      · exact h1
      · have hC := sizeOf_stripIndexingInsts_le (stripAddressProjections V)
        omega
    rw [hsap] at hsize
    have hsii : stripIndexingInsts V = V := by
      rcases stripIndexingInsts_le V with h1 | h1
      · exact h1
      · omega
    obtain ⟨h1, h2⟩ := (stripCastsWithoutMarkDependence_eq_self_iff V).mp hsc
    obtain ⟨h3, h4⟩ := (stripAddressProjections_eq_self_iff V).mp hsap
    exact ⟨h1, h2, h4, (stripIndexingInsts_eq_self_iff V).mp hsii⟩
  · intro ⟨h1, h2, h3, h4⟩
    have hsc := (stripCastsWithoutMarkDependence_eq_self_iff V).mpr ⟨h1, h2⟩
    have hsap := (stripAddressProjections_eq_self_iff V).mpr ⟨h1, h3⟩
    have hsii := (stripIndexingInsts_eq_self_iff V).mpr h4
    simp only [underlyingObjectStopAtMDStep]
    rw [hsc, hsap, hsii]

/-- Computable fixed-point test for the
`getUnderlyingObjectStopAtMarkDependence` loop; equivalent to the
source's identity test (`isUnderlyingObjectStopAtMDFixpoint_iff`). -/
def isUnderlyingObjectStopAtMDFixpoint (V : SILValue) : Bool :=
  (singlePredTerminatorArg V).isNone &&
    (castOperandWithoutMarkDependence V).isNone &&
    (addressProjectionOperand V).isNone &&
    (indexingOperand V).isNone

theorem isUnderlyingObjectStopAtMDFixpoint_iff (V : SILValue) :
    isUnderlyingObjectStopAtMDFixpoint V = true ↔
      underlyingObjectStopAtMDStep V = V := by
  rw [underlyingObjectStopAtMDStep_eq_self_iff]
  simp [isUnderlyingObjectStopAtMDFixpoint, Option.isNone_iff_eq_none, and_assoc]

/-- `swift::getUnderlyingObjectStopAtMarkDependence`
(InstructionUtils.cpp:58-65), with the identity test implemented by the
equivalent computable test. -/
def getUnderlyingObjectStopAtMarkDependence (V : SILValue) : SILValue :=
  if h : isUnderlyingObjectStopAtMDFixpoint V then V
  else getUnderlyingObjectStopAtMarkDependence (underlyingObjectStopAtMDStep V)
termination_by sizeOf V
decreasing_by
  have h2 : ¬underlyingObjectStopAtMDStep V = V := fun hc =>
    h ((isUnderlyingObjectStopAtMDFixpoint_iff V).mpr hc)
  rcases underlyingObjectStopAtMDStep_le V with h1 | h1
  · exact absurd h1 h2
  · exact h1

theorem getUnderlyingObjectStopAtMarkDependence_of_eq {V : SILValue} (h : underlyingObjectStopAtMDStep V = V) :
    getUnderlyingObjectStopAtMarkDependence V = V := by
  rw [getUnderlyingObjectStopAtMarkDependence,
    dif_pos ((isUnderlyingObjectStopAtMDFixpoint_iff V).mpr h)]

theorem getUnderlyingObjectStopAtMarkDependence_of_ne {V : SILValue} (h : ¬underlyingObjectStopAtMDStep V = V) :
    getUnderlyingObjectStopAtMarkDependence V = getUnderlyingObjectStopAtMarkDependence (underlyingObjectStopAtMDStep V) := by
  rw [getUnderlyingObjectStopAtMarkDependence, dif_neg]
  intro hc
  exact h ((isUnderlyingObjectStopAtMDFixpoint_iff V).mp hc)

theorem getUnderlyingObjectStopAtMarkDependence_fixpoint (V : SILValue) :
    underlyingObjectStopAtMDStep (getUnderlyingObjectStopAtMarkDependence V) = getUnderlyingObjectStopAtMarkDependence V := by
  generalize hn : sizeOf V = n
  induction n using Nat.strong_induction_on generalizing V with
  | _ n ih =>
  subst hn
  by_cases h : underlyingObjectStopAtMDStep V = V
  · rw [getUnderlyingObjectStopAtMarkDependence_of_eq h]
    exact h
  · rw [getUnderlyingObjectStopAtMarkDependence_of_ne h]
    have h1 := underlyingObjectStopAtMDStep_le V
    rcases h1 with h1 | h1
    · exact absurd h1 h
    · exact ih (sizeOf (underlyingObjectStopAtMDStep V)) h1 (underlyingObjectStopAtMDStep V) rfl

theorem getUnderlyingObjectStopAtMarkDependence_idem (V : SILValue) :
    getUnderlyingObjectStopAtMarkDependence (getUnderlyingObjectStopAtMarkDependence V) = getUnderlyingObjectStopAtMarkDependence V :=
  getUnderlyingObjectStopAtMarkDependence_of_eq (getUnderlyingObjectStopAtMarkDependence_fixpoint V)

theorem sizeOf_getUnderlyingObjectStopAtMarkDependence_le (V : SILValue) :
    sizeOf (getUnderlyingObjectStopAtMarkDependence V) ≤ sizeOf V := by
  generalize hn : sizeOf V = n
  induction n using Nat.strong_induction_on generalizing V with
  | _ n ih =>
  subst hn
  by_cases h : underlyingObjectStopAtMDStep V = V
  · rw [getUnderlyingObjectStopAtMarkDependence_of_eq h]
  · rw [getUnderlyingObjectStopAtMarkDependence_of_ne h]
    rcases underlyingObjectStopAtMDStep_le V with h1 | h1
    · exact absurd h1 h
    · have h2 := ih (sizeOf (underlyingObjectStopAtMDStep V)) h1 (underlyingObjectStopAtMDStep V) rfl
      omega


/-- The subobject-projection unwrap switch inside
`swift::getUnderlyingAddressRoot` (InstructionUtils.cpp:42-50): a
struct/tuple-element or enum-payload address projection is replaced by its
operand; anything else is left alone. -/
def addressRootProjectionUnwrap : SILValue → SILValue
  | structElementAddr op => op
  | tupleElementAddr op => op
  | uncheckedTakeEnumDataAddr op => op
  | v => v

theorem addressRootProjectionUnwrap_le (v : SILValue) :
    addressRootProjectionUnwrap v = v ∨
      sizeOf (addressRootProjectionUnwrap v) < sizeOf v := by
  cases v <;> first
    | exact Or.inl rfl
    | (right; simp [addressRootProjectionUnwrap]; omega)
    | (right; simp [addressRootProjectionUnwrap])

/-- The loop body of `swift::getUnderlyingAddressRoot`
(InstructionUtils.cpp:41-50): strip casts and indexing, then unwrap one
struct/tuple/enum-payload address projection. -/
def underlyingAddressRootStep (V : SILValue) : SILValue :=
  addressRootProjectionUnwrap (stripIndexingInsts (stripCasts V))

theorem underlyingAddressRootStep_le (V : SILValue) :
    underlyingAddressRootStep V = V ∨
      sizeOf (underlyingAddressRootStep V) < sizeOf V := by
  by_cases he : underlyingAddressRootStep V = V
  · exact Or.inl he
  right
  have ha := stripCasts_le V
  have hb := stripIndexingInsts_le (stripCasts V)
  have hc := addressRootProjectionUnwrap_le (stripIndexingInsts (stripCasts V))
  have h1 := sizeOf_stripCasts_le V
  have h2 := sizeOf_stripIndexingInsts_le (stripCasts V)
  have h3 : sizeOf (addressRootProjectionUnwrap (stripIndexingInsts (stripCasts V))) ≤
      sizeOf (stripIndexingInsts (stripCasts V)) := by
    rcases hc with hc | hc
    · rw [hc]
    · omega
  simp only [underlyingAddressRootStep] at he ⊢
  rcases ha with ha | ha
  · rcases hb with hb | hb
    · rcases hc with hc | hc
      · exact absurd (by rw [hc, hb, ha]) he
      · omega
    · omega
  · omega

theorem sizeOf_addressRootProjectionUnwrap_le (v : SILValue) :
    sizeOf (addressRootProjectionUnwrap v) ≤ sizeOf v := by
  rcases addressRootProjectionUnwrap_le v with h | h
  · rw [h]
  · omega

theorem addressRootProjectionUnwrap_eq_self_iff (V : SILValue) :
    addressRootProjectionUnwrap V = V ↔ addressProjectionOperand V = none := by
  constructor
  · intro h
    cases hc : addressProjectionOperand V with
    | none => rfl
    | some op =>
      exfalso
      have h3 := sizeOf_addressProjectionOperand hc
      have hu : addressRootProjectionUnwrap V = op := by
        cases V <;> simp [addressProjectionOperand] at hc <;>
          simp [addressRootProjectionUnwrap, hc]
      rw [hu] at h
      have h4 : sizeOf op = sizeOf V := by rw [h]
      omega
  · intro h
    cases V <;> simp [addressProjectionOperand] at h <;> rfl

theorem underlyingAddressRootStep_eq_self_iff (V : SILValue) :
    underlyingAddressRootStep V = V ↔
      (singlePredTerminatorArg V = none ∧
        castOperandWithMarkDependence V = none ∧
        indexingOperand V = none ∧
        addressProjectionOperand V = none) := by
  constructor
  · intro h
    have hsize : sizeOf (underlyingAddressRootStep V) = sizeOf V := by rw [h]
    simp only [underlyingAddressRootStep] at hsize
    have hsc : stripCasts V = V := by
      rcases stripCasts_le V with h1 | h1
      · exact h1
      · have hB := sizeOf_stripIndexingInsts_le (stripCasts V)
        have hC := sizeOf_addressRootProjectionUnwrap_le
          (stripIndexingInsts (stripCasts V))
        omega
    rw [hsc] at hsize
    have hsii : stripIndexingInsts V = V := by
      rcases stripIndexingInsts_le V with h1 | h1
      · exact h1
      · have hC := sizeOf_addressRootProjectionUnwrap_le (stripIndexingInsts V)
        omega
    rw [hsii] at hsize
    have hun : addressRootProjectionUnwrap V = V := by
      rcases addressRootProjectionUnwrap_le V with h1 | h1
      · exact h1
      · omega
    obtain ⟨h1, h2⟩ := (stripCasts_eq_self_iff V).mp hsc
    exact ⟨h1, h2, (stripIndexingInsts_eq_self_iff V).mp hsii,
      (addressRootProjectionUnwrap_eq_self_iff V).mp hun⟩
  · intro ⟨h1, h2, h3, h4⟩
    have hsc := (stripCasts_eq_self_iff V).mpr ⟨h1, h2⟩
    have hsii := (stripIndexingInsts_eq_self_iff V).mpr h3
    have hun := (addressRootProjectionUnwrap_eq_self_iff V).mpr h4
    simp only [underlyingAddressRootStep]
    rw [hsc, hsii, hun]

/-- Computable fixed-point test for the `getUnderlyingAddressRoot` loop;
equivalent to the source's identity test
(`isUnderlyingAddressRootFixpoint_iff`). -/
def isUnderlyingAddressRootFixpoint (V : SILValue) : Bool :=
  (singlePredTerminatorArg V).isNone &&
    (castOperandWithMarkDependence V).isNone &&
    (indexingOperand V).isNone &&
    (addressProjectionOperand V).isNone

theorem isUnderlyingAddressRootFixpoint_iff (V : SILValue) :
    isUnderlyingAddressRootFixpoint V = true ↔
      underlyingAddressRootStep V = V := by
  rw [underlyingAddressRootStep_eq_self_iff]
  simp [isUnderlyingAddressRootFixpoint, Option.isNone_iff_eq_none, and_assoc]

/-- `swift::getUnderlyingAddressRoot` (InstructionUtils.cpp:39-55), with
the identity test implemented by the equivalent computable test. -/
def getUnderlyingAddressRoot (V : SILValue) : SILValue :=
  if h : isUnderlyingAddressRootFixpoint V then V
  else getUnderlyingAddressRoot (underlyingAddressRootStep V)
termination_by sizeOf V
decreasing_by
  have h2 : ¬underlyingAddressRootStep V = V := fun hc =>
    h ((isUnderlyingAddressRootFixpoint_iff V).mpr hc)
  rcases underlyingAddressRootStep_le V with h1 | h1
  · exact absurd h1 h2
  · exact h1

theorem getUnderlyingAddressRoot_of_eq {V : SILValue} (h : underlyingAddressRootStep V = V) :
    getUnderlyingAddressRoot V = V := by
  rw [getUnderlyingAddressRoot,
    dif_pos ((isUnderlyingAddressRootFixpoint_iff V).mpr h)]

theorem getUnderlyingAddressRoot_of_ne {V : SILValue} (h : ¬underlyingAddressRootStep V = V) :
    getUnderlyingAddressRoot V = getUnderlyingAddressRoot (underlyingAddressRootStep V) := by
  rw [getUnderlyingAddressRoot, dif_neg]
  intro hc
  exact h ((isUnderlyingAddressRootFixpoint_iff V).mp hc)

theorem getUnderlyingAddressRoot_fixpoint (V : SILValue) :
    underlyingAddressRootStep (getUnderlyingAddressRoot V) = getUnderlyingAddressRoot V := by
  generalize hn : sizeOf V = n
  induction n using Nat.strong_induction_on generalizing V with
  | _ n ih =>
  subst hn
  by_cases h : underlyingAddressRootStep V = V
  · rw [getUnderlyingAddressRoot_of_eq h]
    exact h
  · rw [getUnderlyingAddressRoot_of_ne h]
    have h1 := underlyingAddressRootStep_le V
    rcases h1 with h1 | h1
    · exact absurd h1 h
    · exact ih (sizeOf (underlyingAddressRootStep V)) h1 (underlyingAddressRootStep V) rfl

theorem getUnderlyingAddressRoot_idem (V : SILValue) :
    getUnderlyingAddressRoot (getUnderlyingAddressRoot V) = getUnderlyingAddressRoot V :=
  getUnderlyingAddressRoot_of_eq (getUnderlyingAddressRoot_fixpoint V)

theorem sizeOf_getUnderlyingAddressRoot_le (V : SILValue) :
    sizeOf (getUnderlyingAddressRoot V) ≤ sizeOf V := by
  generalize hn : sizeOf V = n
  induction n using Nat.strong_induction_on generalizing V with
  | _ n ih =>
  subst hn
  by_cases h : underlyingAddressRootStep V = V
  · rw [getUnderlyingAddressRoot_of_eq h]
  · rw [getUnderlyingAddressRoot_of_ne h]
    rcases underlyingAddressRootStep_le V with h1 | h1
    · exact absurd h1 h
    · have h2 := ih (sizeOf (underlyingAddressRootStep V)) h1 (underlyingAddressRootStep V) rfl
      omega


end SILValue

/-- Result of `findAccessedAddressBase`: an identified base address, the
null `SILValue()` sentinel for value-to-address conversions and local
initialization, or the `llvm_unreachable` invariant violation. -/
inductive AccessBaseResult where
  | base (v : SILValue)
  | noBase
  | fatal

/-- One classification step of `findAccessedAddressBase`: stop with a
result, or continue at an operand. -/
inductive AccessBaseStep where
  | stop (r : AccessBaseResult)
  | descend (op : SILValue)

namespace SILValue

/-- `isLetAccess` (InstructionUtils.cpp:295-313): an `alloc_stack` or
`alloc_box` whose attached declaration exists and is a `let`, or a
`global_addr` whose referenced global exists and is a `let`. -/
def isLetAccess : SILValue → Bool
  | allocStack declIsLet _ => declIsLet.getD false
  | allocBox declIsLet _ => declIsLet.getD false
  | globalAddr globalIsLet _ => globalIsLet.getD false
  | _ => false

/-- The modelled `getType()` of a value: constructors whose type the
source queries carry it; every other constructor yields `otherType`. -/
def getType : SILValue → SILTypeInfo
  | unknownValue _ ty => ty
  | functionArgument _ ty => ty
  | convertFunction _ ty => ty
  | beginAccess _ ty => ty
  | copyBlock _ ty => ty
  | partialApply _ _ ty => ty
  | enumInst _ ty => ty
  | initBlockStorageNoProj _ ty => ty
  | initBlockStorageNoStore _ ty => ty
  | initBlockStorageStored _ _ ty => ty
  | refElementAddr _ ty => ty
  | globalAddr _ ty => ty
  | allocStack _ ty => ty
  | allocBox _ ty => ty
  | pointerToAddress _ ty => ty
  | allocExistentialBox ty => ty
  | _ => SILTypeInfo.otherType

/-- The switch of `swift::findAccessedAddressBase`
(InstructionUtils.cpp:315-400), one iteration: base kinds (global, class
field, box or stack allocation, `begin_access`, function argument,
`pointer_to_address`, and a block argument that is a `switch_enum`
payload) answer with the address itself; inductive kinds (address casts,
`copy_value`, `mark_dependence`, box/block-storage projection,
`begin_borrow`, and the subobject projections and indexing) continue at
`getOperand(0)`; value-to-address conversions and local initialization
yield the null sentinel; every other kind — including any other
block-argument shape — is `llvm_unreachable`. -/
def accessedAddressBaseStep : SILValue → AccessBaseStep
  | v@(globalAddr _ _) => .stop (.base v)
  | v@(refElementAddr _ _) => .stop (.base v)
  | v@(allocBox _ _) => .stop (.base v)
  | v@(allocStack _ _) => .stop (.base v)
  | v@(beginAccess _ _) => .stop (.base v)
  | v@(functionArgument _ _) => .stop (.base v)
  | v@(pointerToAddress _ _) => .stop (.base v)
  | v@(phiArgSwitchEnum _) => .stop (.base v)
  | phiArgBranch _ _ => .stop .fatal
  | phiArgCondBranch _ _ => .stop .fatal
  | phiArgCondBranchNullArg _ => .stop .fatal
  | phiArgNoSinglePred _ => .stop .fatal
  | phiArgOtherTerm _ => .stop .fatal
  | markUninitialized op => .descend op
  | openExistentialAddr op => .descend op
  | uncheckedAddrCast op => .descend op
  | copyValue op => .descend op
  | markDependence op _ => .descend op
  | projectBox op => .descend op
  | projectBlockStorage op => .descend op
  | beginBorrow op => .descend op
  | structElementAddr op => .descend op
  | tupleElementAddr op => .descend op
  | uncheckedTakeEnumDataAddr op => .descend op
  | refTailAddr op => .descend op
  | tailAddr op _ => .descend op
  | indexAddr op _ => .descend op
  | openExistentialBox _ => .stop .noBase
  | projectExistentialBox _ => .stop .noBase
  | projectValueBuffer _ => .stop .noBase
  | initEnumDataAddr _ => .stop .noBase
  | initExistentialAddr _ => .stop .noBase
  | allocExistentialBox _ => .stop .noBase
  | allocValueBuffer _ => .stop .noBase
  | silUndef => .stop .noBase
  | _ => .stop .fatal

theorem sizeOf_accessedAddressBaseStep_descend {v op : SILValue}
    (h : accessedAddressBaseStep v = .descend op) : sizeOf op < sizeOf v := by
  cases v <;> simp [accessedAddressBaseStep] at h <;> (subst h; simp) <;> omega

/-- `swift::findAccessedAddressBase` (InstructionUtils.cpp:315-400):
iterate the classification switch. -/
def findAccessedAddressBase (sourceAddr : SILValue) : AccessBaseResult :=
  match h : accessedAddressBaseStep sourceAddr with
  | .stop r => r
  | .descend op => findAccessedAddressBase op
termination_by sizeOf sourceAddr
decreasing_by
  exact sizeOf_accessedAddressBaseStep_descend h

theorem findAccessedAddressBase_of_stop {v : SILValue} {r : AccessBaseResult}
    (h : accessedAddressBaseStep v = .stop r) :
    findAccessedAddressBase v = r := by
  rw [findAccessedAddressBase]
  split
  · rename_i r2 hr
    have h2 := h.symm.trans hr
    injection h2 with h2
    rw [h2]
  · rename_i op hr
    rw [h] at hr
    cases hr

theorem findAccessedAddressBase_of_descend {v op : SILValue}
    (h : accessedAddressBaseStep v = .descend op) :
    findAccessedAddressBase v = findAccessedAddressBase op := by
  rw [findAccessedAddressBase]
  split
  · rename_i r2 hr
    rw [h] at hr
    cases hr
  · rename_i op2 hr
    have h2 := h.symm.trans hr
    injection h2 with h2
    rw [h2]

/-- `isa<SILFunctionArgument>`. -/
def isSILFunctionArgument : SILValue → Bool
  | functionArgument _ _ => true
  | _ => false

/-- `isa<PointerToAddressInst>`. -/
def isPointerToAddress : SILValue → Bool
  | pointerToAddress _ _ => true
  | _ => false

/-- `swift::isPossibleFormalAccessBase` (InstructionUtils.cpp:402-422):
false for a function argument, a `pointer_to_address`, a `let` base, and
a base whose formal type is `Builtin.UnsafeValueBuffer`; true otherwise. -/
def isPossibleFormalAccessBase (baseAddress : SILValue) : Bool :=
  if isSILFunctionArgument baseAddress then false
  else if isPointerToAddress baseAddress then false
  else if isLetAccess baseAddress then false
  else if baseAddress.getType = SILTypeInfo.unsafeValueBufferType then false
  else true

end SILValue

/-- `SILType::getOptionalObjectType`: the payload type when the type is
`Optional` of something. -/
def SILTypeInfo.getOptionalObjectType : SILTypeInfo → Option SILTypeInfo
  | .optionalType payload => some payload
  | _ => none

/-- `getAs<SILFunctionType>()->getRepresentation()`: the representation
when the type is a function type, `none` otherwise (in the source a null
`getAs` result followed by `getRepresentation()` is undefined
behaviour). -/
def SILTypeInfo.functionRep : SILTypeInfo → Option FunctionRep
  | .functionType rep _ => some rep
  | _ => none

/-- `SILType::is<SILFunctionType>()`. -/
def SILTypeInfo.isFunctionType : SILTypeInfo → Bool
  | .functionType _ _ => true
  | _ => false

/-- `SILType::isReferenceCounted` — modelled only for function types, the
only place the source queries it. -/
def SILTypeInfo.isReferenceCounted : SILTypeInfo → Bool
  | .functionType _ rc => rc
  | _ => false

/-- Outcome of `findClosureStoredIntoBlock`
(InstructionUtils.cpp:447-485): the source of the single store into the
block storage; or the null result when no `init_block_storage_header` is
found behind the `copy_block` wrappers; or an assertion failure when the
header is found but the single `project_block_storage` user or its single
`store` user is missing. -/
inductive BlockClosureLookup where
  | found (src : SILValue)
  | notFound
  | assertFail

/-- Result of `findClosureForAppliedArg`: the `FindClosureResult` pair
(closure-creating `partial_apply` or null, and the via-thunk flag), or
undefined behaviour / assertion failure on input the source does not
tolerate. -/
inductive FindClosureOutcome where
  | ok (pai : Option SILValue) (viaThunk : Bool)
  | fatal

namespace SILValue

/-- `findClosureStoredIntoBlock` (InstructionUtils.cpp:447-485): look
through `copy_block` wrappers; a value that is then not an
`init_block_storage_header` gives the null result; otherwise the single
`project_block_storage` user of the block storage and its single `store`
user are asserted to exist, and the store's source is returned.  The
use-list queries are recorded on the `initBlockStorage*` constructors. -/
def findClosureStoredIntoBlock : SILValue → BlockClosureLookup
  | copyBlock op _ => findClosureStoredIntoBlock op
  | initBlockStorageNoProj _ _ => .assertFail
  | initBlockStorageNoStore _ _ => .assertFail
  | initBlockStorageStored _ src _ => .found src
  | _ => .notFound

theorem sizeOf_findClosureStoredIntoBlock_found {v src : SILValue}
    (h : findClosureStoredIntoBlock v = .found src) : sizeOf src < sizeOf v := by
  generalize hn : sizeOf v = n
  induction n using Nat.strong_induction_on generalizing v with
  | _ n ih =>
  subst hn
  cases v <;> simp [findClosureStoredIntoBlock] at h
  · rename_i op ty
    have h2 := ih (sizeOf op) (by simp; omega) h rfl
    simp
    omega
  · rename_i storage src2 ty
    subst h
    simp
    omega

/-- `isa<PartialApplyInst>`. -/
def isPartialApplyInst : SILValue → Bool
  | partialApply _ _ _ => true
  | _ => false

/-- `swift::isPartialApplyOfReabstractionThunk`
(InstructionUtils.cpp:424-443): for a `partial_apply` of exactly one
argument, whose referenced callee exists and is a reabstraction thunk,
and whose argument is a reference-counted function value, that argument;
null otherwise.  The C++ signature only admits a `PartialApplyInst`, so
other values yield null. -/
def isPartialApplyOfReabstractionThunk : SILValue → Option SILValue
  | partialApply callee args _ =>
    if args.length ≠ 1 then none
    else
      match callee with
      | none => none
      | some fn =>
        if fn.thunkKind ≠ ThunkKind.reabstractionThunk then none
        else
          match args.getArg 0 with
          | none => none
          | some arg =>
            if arg.getType.isFunctionType && arg.getType.isReferenceCounted
            then some arg
            else none
  | _ => none

theorem sizeOf_isPartialApplyOfReabstractionThunk {v arg : SILValue}
    (h : isPartialApplyOfReabstractionThunk v = some arg) :
    sizeOf arg < sizeOf v := by
  cases v <;> simp [isPartialApplyOfReabstractionThunk] at h
  rename_i callee args ty
  rcases callee with _ | fn
  · simp at h
  · simp at h
    obtain ⟨h1, h2, h3⟩ := h
    cases h4 : args.getArg 0 with
    | none => rw [h4] at h3; simp at h3
    | some a =>
      rw [h4] at h3
      simp at h3
      obtain ⟨h5, h6⟩ := h3
      subst h6
      have h7 := SILValueList.sizeOf_getArg h4
      simp
      omega

/-- Stages (1)-(4) of `findClosureForAppliedArg`, after the optional
unwrap (InstructionUtils.cpp:500-506): read the function type's
representation (undefined behaviour — `fatalPre` — when the value has no
function type), resolve a block-representation value through
`findClosureStoredIntoBlock` (its null result returns "no closure", its
assertion failure is fatal), then strip `convert_function` wrappers. -/
inductive AppliedArgPre where
  | fatalPre
  | noneEarly
  | proceed (v : SILValue)

def appliedArgAfterOptional (V : SILValue) : AppliedArgPre :=
  match V.getType.functionRep with
  | none => .fatalPre
  | some rep =>
    if rep = FunctionRep.block then
      match findClosureStoredIntoBlock V with
      | .found src => .proceed (stripConvertFunctions src)
      | .notFound => .noneEarly
      | .assertFail => .fatalPre
    else .proceed (stripConvertFunctions V)

/-- Stages (1)-(2) of `findClosureForAppliedArg`
(InstructionUtils.cpp:493-498): look through a `begin_borrow`, then — when
the type is an optional — unwrap the `enum` payload (`cast<EnumInst>` is
undefined behaviour, `fatalPre`, when the optional-typed value is not an
`enum` instruction). -/
def appliedArgPreprocess (V : SILValue) : AppliedArgPre :=
  match (stripBorrow V).getType.getOptionalObjectType with
  | some _ =>
    match stripBorrow V with
    | enumInst payload _ => appliedArgAfterOptional payload
    | _ => .fatalPre
  | none => appliedArgAfterOptional (stripBorrow V)

theorem sizeOf_stripBorrow_le (V : SILValue) : sizeOf (stripBorrow V) ≤ sizeOf V := by
  cases V <;> simp [stripBorrow] <;> omega

theorem sizeOf_appliedArgAfterOptional_proceed {v W : SILValue}
    (h : appliedArgAfterOptional v = .proceed W) : sizeOf W ≤ sizeOf v := by
  cases hr : v.getType.functionRep with
  | none => simp [appliedArgAfterOptional, hr] at h
  | some rep =>
    by_cases hb : rep = FunctionRep.block
    · subst hb
      cases hf : findClosureStoredIntoBlock v with
      | found src =>
        simp [appliedArgAfterOptional, hr, hf] at h
        subst h
        have h1 := sizeOf_stripConvertFunctions_le src
        have h2 := sizeOf_findClosureStoredIntoBlock_found hf
        omega
      | notFound => simp [appliedArgAfterOptional, hr, hf] at h
      | assertFail => simp [appliedArgAfterOptional, hr, hf] at h
    · simp [appliedArgAfterOptional, hr, hb] at h
      subst h
      exact sizeOf_stripConvertFunctions_le v

theorem sizeOf_appliedArgPreprocess_proceed {V W : SILValue}
    (h : appliedArgPreprocess V = .proceed W) : sizeOf W ≤ sizeOf V := by
  have hb := sizeOf_stripBorrow_le V
  cases ho : (stripBorrow V).getType.getOptionalObjectType with
  | none =>
    simp only [appliedArgPreprocess, ho] at h
    have h1 := sizeOf_appliedArgAfterOptional_proceed h
    omega
  | some ty =>
    simp only [appliedArgPreprocess, ho] at h
    cases hv : stripBorrow V <;> rw [hv] at h <;> simp at h
    rename_i payload ty2
    have h1 := sizeOf_appliedArgAfterOptional_proceed h
    rw [hv] at hb
    simp at hb
    omega

/-- `swift::findClosureForAppliedArg` (InstructionUtils.cpp:492-518):
after the preprocessing stages, a non-`partial_apply` answers "no
closure"; a `partial_apply` that is a reabstraction thunk recurses on the
thunk's single argument and forces the via-thunk flag; any other
`partial_apply` is the closure itself. -/
def findClosureForAppliedArg (V : SILValue) : FindClosureOutcome :=
  match h : appliedArgPreprocess V with
  | .fatalPre => .fatal
  | .noneEarly => .ok none false
  | .proceed W =>
    if isPartialApplyInst W then
      match ht : isPartialApplyOfReabstractionThunk W with
      | some thunkArg =>
        match findClosureForAppliedArg thunkArg with
        | .ok pai _ => .ok pai true
        | .fatal => .fatal
      | none => .ok (some W) false
    else .ok none false
termination_by sizeOf V
decreasing_by
  have h1 := sizeOf_appliedArgPreprocess_proceed h
  have h2 := sizeOf_isPartialApplyOfReabstractionThunk ht
  omega

theorem findClosureForAppliedArg_of_fatalPre {V : SILValue}
    (h : appliedArgPreprocess V = .fatalPre) :
    findClosureForAppliedArg V = .fatal := by
  rw [findClosureForAppliedArg]
  split
  · rfl
  · rename_i hy
    simp [h] at hy
  · rename_i W hy
    simp [h] at hy

theorem findClosureForAppliedArg_of_noneEarly {V : SILValue}
    (h : appliedArgPreprocess V = .noneEarly) :
    findClosureForAppliedArg V = .ok none false := by
  rw [findClosureForAppliedArg]
  split
  · rename_i hy
    simp [h] at hy
  · rfl
  · rename_i W hy
    simp [h] at hy

theorem findClosureForAppliedArg_of_proceed_notPAI {V W : SILValue}
    (h : appliedArgPreprocess V = .proceed W)
    (hp : isPartialApplyInst W = false) :
    findClosureForAppliedArg V = .ok none false := by
  rw [findClosureForAppliedArg]
  split
  · rename_i hy
    simp [h] at hy
  · rename_i hy
    simp [h] at hy
  · rename_i W2 hy
    have h2 := h.symm.trans hy
    injection h2 with h2
    subst h2
    rw [hp]
    simp

theorem findClosureForAppliedArg_of_proceed_direct {V W : SILValue}
    (h : appliedArgPreprocess V = .proceed W)
    (hp : isPartialApplyInst W = true)
    (ht : isPartialApplyOfReabstractionThunk W = none) :
    findClosureForAppliedArg V = .ok (some W) false := by
  rw [findClosureForAppliedArg]
  split
  · rename_i hy
    simp [h] at hy
  · rename_i hy
    simp [h] at hy
  · rename_i W2 hy
    have h2 := h.symm.trans hy
    injection h2 with h2
    subst h2
    rw [hp]
    simp
    split
    · rename_i y hy2
      rw [ht] at hy2
      cases hy2
    · rfl

theorem findClosureForAppliedArg_of_proceed_thunk {V W thunkArg : SILValue}
    (h : appliedArgPreprocess V = .proceed W)
    (hp : isPartialApplyInst W = true)
    (ht : isPartialApplyOfReabstractionThunk W = some thunkArg) :
    findClosureForAppliedArg V =
      match findClosureForAppliedArg thunkArg with
      | .ok pai _ => .ok pai true
      | .fatal => .fatal := by
  rw [findClosureForAppliedArg]
  split
  · rename_i hy
    simp [h] at hy
  · rename_i hy
    simp [h] at hy
  · rename_i W2 hy
    have h2 := h.symm.trans hy
    injection h2 with h2
    subst h2
    rw [hp]
    simp
    split
    · rename_i y hy2
      have h3 := ht.symm.trans hy2
      injection h3 with h3
      rw [h3]
    · rename_i hy2
      rw [ht] at hy2
      cases hy2

end SILValue

/-- `OwnershipQualifiedKind` (InstructionUtils.cpp:521-525). -/
inductive OwnershipQualifiedKind where
  | notApplicable
  | qualified
  | unqualified
deriving DecidableEq

/-- `LoadOwnershipQualifier`: the per-instance qualifier of a `load`. -/
inductive LoadOwnershipQualifier where
  | unqualified
  | take
  | copy
  | trivial
deriving DecidableEq

/-- `StoreOwnershipQualifier`: the per-instance qualifier of a `store`. -/
inductive StoreOwnershipQualifier where
  | unqualified
  | init
  | assign
  | trivial
deriving DecidableEq

/-- An instruction as far as `FunctionOwnershipEvaluator` inspects it: the
fixed qualified kinds (InstructionUtils.cpp:537-541), loads and stores
with their qualifier bit (544-554), and any other instruction. -/
inductive OwnershipInstruction where
  | endBorrow
  | loadBorrow
  | copyValueInst
  | copyUnownedValue
  | destroyValue
  | load (q : LoadOwnershipQualifier)
  | store (q : StoreOwnershipQualifier)
  | otherInstruction (id : Nat)
deriving DecidableEq

/-- `OwnershipQualifiedKindVisitor` (InstructionUtils.cpp:527-555):
`end_borrow`, `load_borrow`, `copy_value`, `copy_unowned_value` and
`destroy_value` are Qualified; a `load` or `store` is Unqualified exactly
when its qualifier bit is Unqualified and Qualified otherwise; every
other instruction is NotApplicable. -/
def ownershipQualifiedKind : OwnershipInstruction → OwnershipQualifiedKind
  | .endBorrow => .qualified
  | .loadBorrow => .qualified
  | .copyValueInst => .qualified
  | .copyUnownedValue => .qualified
  | .destroyValue => .qualified
  | .load q => if q = LoadOwnershipQualifier.unqualified
      then .unqualified else .qualified
  | .store q => if q = StoreOwnershipQualifier.unqualified
      then .unqualified else .qualified
  | .otherInstruction _ => .notApplicable

/-- The state `FunctionOwnershipEvaluator::evaluate` reads and mutates:
the function's `hasQualifiedOwnership` flag and the evaluator's
`HasOwnershipQualifiedInstruction` flag. -/
structure FunctionOwnershipState where
  hasQualifiedOwnership : Bool
  hasOwnershipQualifiedInstruction : Bool
deriving DecidableEq

/-- Modelled from the spec: the initial evaluator state.  The evaluator's
declaration (`swift/SIL/InstructionUtils.h`) is not part of this
repository snapshot; spec §4.4 fixes the initial state to
QualifiedNoEvidence — the function starts qualified (the source's own
comment: "functions start as qualified", InstructionUtils.cpp:592-593)
and no qualified instruction has been seen yet. -/
def initialOwnershipState : FunctionOwnershipState :=
  ⟨true, false⟩

/-- `FunctionOwnershipEvaluator::evaluate` (InstructionUtils.cpp:559-606)
as a pure transition: the acceptance answer and the state after the call.
An Unqualified instruction is accepted outright when the function already
has unqualified ownership, rejected when a qualified instruction has been
seen, and otherwise accepted while clearing the function's qualified flag
(`setUnqualifiedOwnership`).  A Qualified instruction is rejected when
the function has unqualified ownership and otherwise accepted while
recording the evidence.  A NotApplicable instruction is always accepted
unchanged. -/
def evaluateOwnership (I : OwnershipInstruction) (s : FunctionOwnershipState) :
    Bool × FunctionOwnershipState :=
  match ownershipQualifiedKind I with
  | .unqualified =>
    if !s.hasQualifiedOwnership then (true, s)
    else if s.hasOwnershipQualifiedInstruction then (false, s)
    else (true, ⟨false, s.hasOwnershipQualifiedInstruction⟩)
  | .qualified =>
    if !s.hasQualifiedOwnership then (false, s)
    else (true, ⟨s.hasQualifiedOwnership, true⟩)
  | .notApplicable => (true, s)

/-- Thread the evaluator through a list of instructions, collecting each
call's acceptance and the final state. -/
def runOwnershipEvaluator :
    List OwnershipInstruction → FunctionOwnershipState →
      List Bool × FunctionOwnershipState
  | [], s => ([], s)
  | i :: rest, s =>
    let r := evaluateOwnership i s
    let rr := runOwnershipEvaluator rest r.2
    (r.1 :: rr.1, rr.2)

/-- The spec's three-state view of the evaluator state (§4.4). -/
inductive OwnershipDialectState where
  | unqualifiedState
  | qualifiedNoEvidence
  | qualifiedWithEvidence
deriving DecidableEq

/-- Abstraction from the two flags to the spec's three states; the flag
pair (false, true) cannot be reached from the initial state and also maps
to the Unqualified state. -/
def dialectState (s : FunctionOwnershipState) : OwnershipDialectState :=
  if s.hasQualifiedOwnership then
    if s.hasOwnershipQualifiedInstruction then .qualifiedWithEvidence
    else .qualifiedNoEvidence
  else .unqualifiedState

namespace SILValue

/-- Fuel-bounded transcription of the `getUnderlyingObject` loop
(InstructionUtils.cpp:28-33): `none` when the fuel runs out before the
fixed point is reached. -/
def getUnderlyingObjectFuel : Nat → SILValue → Option SILValue
  | 0, _ => none
  | n + 1, V =>
    if isUnderlyingObjectFixpoint V then some V
    else getUnderlyingObjectFuel n (underlyingObjectStep V)

theorem getUnderlyingObjectFuel_complete :
    ∀ (n : Nat) (V : SILValue), sizeOf V < n →
      getUnderlyingObjectFuel n V = some (getUnderlyingObject V) := by
  intro n
  induction n using Nat.strong_induction_on with
  | _ n ih =>
  intro V h
  cases n with
  | zero => omega
  | succ m =>
    by_cases he : underlyingObjectStep V = V
    · have hs := (isUnderlyingObjectFixpoint_iff V).mpr he
      simp [getUnderlyingObjectFuel, hs, getUnderlyingObject_of_eq he]
    · rcases underlyingObjectStep_le V with h1 | h1
      · exact absurd h1 he
      · have hs : ¬isUnderlyingObjectFixpoint V = true := fun hc =>
          he ((isUnderlyingObjectFixpoint_iff V).mp hc)
        have h2 := ih m (by omega) (underlyingObjectStep V) (by omega)
        simp [getUnderlyingObjectFuel, hs, getUnderlyingObject_of_ne he, h2]

/-- Fuel-bounded transcription of the `findAccessedAddressBase` loop
(InstructionUtils.cpp:317-399). -/
def findAccessedAddressBaseFuel : Nat → SILValue → Option AccessBaseResult
  | 0, _ => none
  | n + 1, V =>
    match accessedAddressBaseStep V with
    | .stop r => some r
    | .descend op => findAccessedAddressBaseFuel n op

theorem findAccessedAddressBaseFuel_complete :
    ∀ (n : Nat) (V : SILValue), sizeOf V < n →
      findAccessedAddressBaseFuel n V = some (findAccessedAddressBase V) := by
  intro n
  induction n using Nat.strong_induction_on with
  | _ n ih =>
  intro V h
  cases n with
  | zero => omega
  | succ m =>
    cases hs : accessedAddressBaseStep V with
    | stop r =>
      simp [findAccessedAddressBaseFuel, hs, findAccessedAddressBase_of_stop hs]
    | descend op =>
      have h1 := sizeOf_accessedAddressBaseStep_descend hs
      have h2 := ih m (by omega) op (by omega)
      simp [findAccessedAddressBaseFuel, hs,
        findAccessedAddressBase_of_descend hs, h2]

theorem sizeOf_stripExpectIntrinsic_le (V : SILValue) :
    sizeOf (stripExpectIntrinsic V) ≤ sizeOf V := by
  cases V <;> simp [stripExpectIntrinsic] <;> omega

end SILValue

/-- A subobject-projection or indexing layer over an address, as in claim
C1: struct field address, tuple element address, enum payload address, or
index. -/
inductive SubobjectProj where
  | structField
  | tupleElement
  | enumPayload
  | index (idx : SILValue)

/-- Apply one subobject-projection or indexing layer to an address. -/
def applyProj : SubobjectProj → SILValue → SILValue
  | .structField, v => SILValue.structElementAddr v
  | .tupleElement, v => SILValue.tupleElementAddr v
  | .enumPayload, v => SILValue.uncheckedTakeEnumDataAddr v
  | .index i, v => SILValue.indexAddr v i

/-- Apply a chain of subobject projections, innermost last. -/
def applyProjChain : List SubobjectProj → SILValue → SILValue
  | [], v => v
  | p :: rest, v => applyProj p (applyProjChain rest v)

theorem findAccessedAddressBase_applyProj (p : SubobjectProj) (v : SILValue) :
    SILValue.findAccessedAddressBase (applyProj p v) =
      SILValue.findAccessedAddressBase v := by
  cases p <;> exact SILValue.findAccessedAddressBase_of_descend rfl

/-- C1: for every address formed as a chain of subobject projections and
indexing instructions (struct field address, tuple element address, enum
payload address, index) over a base stack allocation,
`findAccessedAddressBase` returns that base allocation, independent of
the chain's length: each such layer is an inductive kind replaced by its
single address operand, and the base kind returns immediately. -/
theorem C1_root_stability_under_projection_chains
    (chain : List SubobjectProj) (declIsLet : Option Bool) (ty : SILTypeInfo) :
    SILValue.findAccessedAddressBase
        (applyProjChain chain (SILValue.allocStack declIsLet ty)) =
      AccessBaseResult.base (SILValue.allocStack declIsLet ty) := by
  induction chain with
  | nil => exact SILValue.findAccessedAddressBase_of_stop rfl
  | cons p rest ih =>
    rw [applyProjChain, findAccessedAddressBase_applyProj]
    exact ih

/-- C2, counterexample: a mutable (non-`let`) stack allocation of the
unsafe value-buffer type is in none of the claim's three false-classes
(not a function argument, not a pointer-to-address, not immutable), yet
`isPossibleFormalAccessBase` returns false for it, so the three classes
are not exhaustive. -/
theorem C2_counterexample_unsafe_value_buffer :
    SILValue.isPossibleFormalAccessBase
        (SILValue.allocStack none SILTypeInfo.unsafeValueBufferType) = false ∧
      SILValue.isSILFunctionArgument
        (SILValue.allocStack none SILTypeInfo.unsafeValueBufferType) = false ∧
      SILValue.isPointerToAddress
        (SILValue.allocStack none SILTypeInfo.unsafeValueBufferType) = false ∧
      SILValue.isLetAccess
        (SILValue.allocStack none SILTypeInfo.unsafeValueBufferType) = false := by
  decide

/-- C2 (amended): `isPossibleFormalAccessBase` returns false for exactly
four classes of base — an incoming function argument, a
pointer-to-address value, a base marked immutable (a `let`-bound stack
allocation, box, or global), and a base whose formal type is the unsafe
value-buffer type; for every other base, in particular a mutable stack
allocation of any other type, it returns true. -/
theorem C2_isPossibleFormalAccessBase_classification (v : SILValue) :
    SILValue.isPossibleFormalAccessBase v = false ↔
      (SILValue.isSILFunctionArgument v = true ∨
        SILValue.isPointerToAddress v = true ∨
        SILValue.isLetAccess v = true ∨
        SILValue.getType v = SILTypeInfo.unsafeValueBufferType) := by
  unfold SILValue.isPossibleFormalAccessBase
  split_ifs with h1 h2 h3 h4 <;> simp_all

namespace SILValue

theorem isAddressProjection_iff_operand (v : SILValue) :
    isAddressProjection v = true ↔ ∃ op, addressProjectionOperand v = some op := by
  cases v <;> simp [isAddressProjection, addressProjectionOperand]

theorem underlyingObjectStep_components_fixed {W : SILValue}
    (hfix : underlyingObjectStep W = W) :
    stripCasts W = W ∧ stripAddressProjections W = W ∧
      stripIndexingInsts W = W := by
  have hsize : sizeOf (underlyingObjectStep W) = sizeOf W := by rw [hfix]
  simp only [underlyingObjectStep] at hsize
  have hsc : stripCasts W = W := by
    rcases stripCasts_le W with h | h
    · exact h
    · have hB := sizeOf_stripAddressProjections_le (stripCasts W)
      have hC := sizeOf_stripIndexingInsts_le (stripAddressProjections (stripCasts W))
      omega
  rw [hsc] at hsize
  have hsap : stripAddressProjections W = W := by
    rcases stripAddressProjections_le W with h | h
    · exact h
    · have hC := sizeOf_stripIndexingInsts_le (stripAddressProjections W)
      omega
  rw [hsap] at hsize
  have hsii : stripIndexingInsts W = W := by
    rcases stripIndexingInsts_le W with h | h
    · exact h
    · omega
  exact ⟨hsc, hsap, hsii⟩

end SILValue

/-- C3, counterexample: `getUnderlyingObject` does not strip value
projections, so its result can itself be a value projection: on a bare
`struct_extract` it is the identity. -/
theorem C3_counterexample_value_projection :
    SILValue.getUnderlyingObject (SILValue.structExtract SILValue.silUndef) =
        SILValue.structExtract SILValue.silUndef ∧
      SILValue.isObjectProjection
        (SILValue.getUnderlyingObject (SILValue.structExtract SILValue.silUndef)) =
        true := by
  have hsspa : SILValue.stripSinglePredecessorArgs
      (SILValue.structExtract SILValue.silUndef) =
      SILValue.structExtract SILValue.silUndef :=
    SILValue.stripSinglePredecessorArgs_of_none rfl
  have hsc : SILValue.stripCasts (SILValue.structExtract SILValue.silUndef) =
      SILValue.structExtract SILValue.silUndef := by
    rw [SILValue.stripCasts_of_none (by rw [hsspa]; rfl), hsspa]
  have hsap : SILValue.stripAddressProjections
      (SILValue.structExtract SILValue.silUndef) =
      SILValue.structExtract SILValue.silUndef := by
    rw [SILValue.stripAddressProjections_of_none (by rw [hsspa]; rfl), hsspa]
  have hstep : SILValue.underlyingObjectStep
      (SILValue.structExtract SILValue.silUndef) =
      SILValue.structExtract SILValue.silUndef := by
    rw [SILValue.underlyingObjectStep, hsc, hsap]
    exact SILValue.stripIndexingInsts_of_none rfl
  have hres := SILValue.getUnderlyingObject_of_eq hstep
  exact ⟨hres, by rw [hres]; rfl⟩

/-- C3 (amended): the result of `getUnderlyingObject` is never an address
projection and never an indexing instruction (the loop strips both to a
fixed point); it can, however, be a value projection, which the function
does not strip — see the counterexample. -/
theorem C3_getUnderlyingObject_postcondition (V : SILValue) :
    SILValue.isAddressProjection (SILValue.getUnderlyingObject V) = false ∧
      SILValue.isIndexingInst (SILValue.getUnderlyingObject V) = false := by
  obtain ⟨hsc, hsap, hsii⟩ :=
    SILValue.underlyingObjectStep_components_fixed
      (SILValue.getUnderlyingObject_fixpoint V)
  have hsspa : SILValue.stripSinglePredecessorArgs (SILValue.getUnderlyingObject V) =
      SILValue.getUnderlyingObject V := by
    have h := (SILValue.stripCasts_fixed (SILValue.getUnderlyingObject V)).1
    rw [hsc] at h
    exact h
  constructor
  · by_contra hcon
    simp only [Bool.not_eq_false] at hcon
    obtain ⟨op, hop⟩ :=
      (SILValue.isAddressProjection_iff_operand (SILValue.getUnderlyingObject V)).mp hcon
    have h1 : SILValue.stripAddressProjections (SILValue.getUnderlyingObject V) =
        SILValue.stripAddressProjections op :=
      SILValue.stripAddressProjections_of_some (by rw [hsspa]; exact hop)
    have h2 := SILValue.sizeOf_stripAddressProjections_le op
    have h3 := SILValue.sizeOf_addressProjectionOperand hop
    rw [hsap] at h1
    have h4 : sizeOf (SILValue.getUnderlyingObject V) =
        sizeOf (SILValue.stripAddressProjections op) := by rw [h1]
    omega
  · by_contra hcon
    simp only [Bool.not_eq_false, SILValue.isIndexingInst, Option.isSome_iff_exists] at hcon
    obtain ⟨op, hop⟩ := hcon
    have h1 : SILValue.stripIndexingInsts (SILValue.getUnderlyingObject V) =
        SILValue.stripIndexingInsts op :=
      SILValue.stripIndexingInsts_of_some hop
    have h2 := SILValue.sizeOf_stripIndexingInsts_le op
    have h3 := SILValue.sizeOf_indexingOperand hop
    rw [hsii] at h1
    have h4 : sizeOf (SILValue.getUnderlyingObject V) =
        sizeOf (SILValue.stripIndexingInsts op) := by rw [h1]
    omega

/-- C4: the ownership-dialect evaluator implements the three-state
machine with initial state QualifiedNoEvidence: a NotApplicable
instruction is always accepted with no state change; an Unqualified
instruction is accepted unchanged in the Unqualified state, rejected in
QualifiedWithEvidence, and accepted with a transition to Unqualified from
QualifiedNoEvidence; a Qualified instruction is rejected in the
Unqualified state and otherwise accepted with an (idempotent) transition
to QualifiedWithEvidence.  The sequence [Qualified, Qualified] accepts
both calls and ends in QualifiedWithEvidence, [Qualified, Unqualified]
rejects the second call, and [Unqualified, Unqualified] accepts both. -/
theorem C4_ownership_evaluator_state_machine :
    dialectState initialOwnershipState =
        OwnershipDialectState.qualifiedNoEvidence ∧
    (∀ (i : OwnershipInstruction) (s : FunctionOwnershipState),
      ownershipQualifiedKind i = OwnershipQualifiedKind.notApplicable →
        evaluateOwnership i s = (true, s)) ∧
    (∀ (i : OwnershipInstruction) (s : FunctionOwnershipState),
      ownershipQualifiedKind i = OwnershipQualifiedKind.unqualified →
        (dialectState s = OwnershipDialectState.unqualifiedState →
          evaluateOwnership i s = (true, s)) ∧
        (dialectState s = OwnershipDialectState.qualifiedWithEvidence →
          evaluateOwnership i s = (false, s)) ∧
        (dialectState s = OwnershipDialectState.qualifiedNoEvidence →
          (evaluateOwnership i s).1 = true ∧
            dialectState (evaluateOwnership i s).2 =
              OwnershipDialectState.unqualifiedState)) ∧
    (∀ (i : OwnershipInstruction) (s : FunctionOwnershipState),
      ownershipQualifiedKind i = OwnershipQualifiedKind.qualified →
        (dialectState s = OwnershipDialectState.unqualifiedState →
          evaluateOwnership i s = (false, s)) ∧
        (dialectState s ≠ OwnershipDialectState.unqualifiedState →
          (evaluateOwnership i s).1 = true ∧
            dialectState (evaluateOwnership i s).2 =
              OwnershipDialectState.qualifiedWithEvidence)) ∧
    ((runOwnershipEvaluator
        [OwnershipInstruction.copyValueInst, OwnershipInstruction.copyValueInst]
        initialOwnershipState).1 = [true, true] ∧
      dialectState (runOwnershipEvaluator
        [OwnershipInstruction.copyValueInst, OwnershipInstruction.copyValueInst]
        initialOwnershipState).2 = OwnershipDialectState.qualifiedWithEvidence) ∧
    (runOwnershipEvaluator
        [OwnershipInstruction.copyValueInst,
          OwnershipInstruction.store StoreOwnershipQualifier.unqualified]
        initialOwnershipState).1 = [true, false] ∧
    (runOwnershipEvaluator
        [OwnershipInstruction.store StoreOwnershipQualifier.unqualified,
          OwnershipInstruction.store StoreOwnershipQualifier.unqualified]
        initialOwnershipState).1 = [true, true] := by
  refine ⟨rfl, ?_, ?_, ?_, by decide, by decide, by decide⟩
  · intro i s h
    simp [evaluateOwnership, h]
  · intro i s h
    obtain ⟨hq, he⟩ := s
    cases hq <;> cases he <;>
      simp_all [evaluateOwnership, dialectState]
  · intro i s h
    obtain ⟨hq, he⟩ := s
    cases hq <;> cases he <;>
      simp_all [evaluateOwnership, dialectState]

/-- C4 witness: the state-machine transitions applied at concrete
instructions and states — a NotApplicable instruction on the initial
state, an unqualified store from QualifiedNoEvidence, and a qualified
`copy_value` rejected in the Unqualified state. -/
theorem C4_witness :
    evaluateOwnership (OwnershipInstruction.otherInstruction 0)
        initialOwnershipState = (true, initialOwnershipState) ∧
    (evaluateOwnership
        (OwnershipInstruction.store StoreOwnershipQualifier.unqualified)
        initialOwnershipState).1 = true ∧
    evaluateOwnership OwnershipInstruction.copyValueInst ⟨false, false⟩ =
      (false, ⟨false, false⟩) :=
  ⟨C4_ownership_evaluator_state_machine.2.1 (OwnershipInstruction.otherInstruction 0)
      initialOwnershipState rfl,
    ((C4_ownership_evaluator_state_machine.2.2.1
      (OwnershipInstruction.store StoreOwnershipQualifier.unqualified)
      initialOwnershipState rfl).2.2 rfl).1,
    (C4_ownership_evaluator_state_machine.2.2.2.1 OwnershipInstruction.copyValueInst
      ⟨false, false⟩ rfl).1 rfl⟩

/-- C10: whenever `evaluate` rejects (returns false), the evaluator state
is left unchanged — both the function's qualified-ownership flag and the
has-qualified-evidence flag keep their values, so a rejected instruction
does not affect the treatment of any subsequent instruction. -/
theorem C10_reject_preserves_state
    (i : OwnershipInstruction) (s : FunctionOwnershipState)
    (h : (evaluateOwnership i s).1 = false) :
    (evaluateOwnership i s).2 = s := by
  obtain ⟨hq, he⟩ := s
  cases hk : ownershipQualifiedKind i <;> cases hq <;> cases he <;>
    simp_all [evaluateOwnership]

/-- C10 witness: an unqualified store rejected in the
QualifiedWithEvidence state leaves the state unchanged. -/
theorem C10_witness :
    (evaluateOwnership
        (OwnershipInstruction.store StoreOwnershipQualifier.unqualified)
        ⟨true, true⟩).2 = ⟨true, true⟩ :=
  C10_reject_preserves_state
    (OwnershipInstruction.store StoreOwnershipQualifier.unqualified)
    ⟨true, true⟩ (by decide)

/-- C7, counterexample: the one-shot functions are not idempotent.  On a
`begin_borrow` of a `begin_borrow`, `stripBorrow` applied twice strips
two layers, so its second application is not a no-op; likewise
`stripExpectIntrinsic` on a nested `llvm.expect` builtin call. -/
theorem C7_counterexample_one_shot_not_idempotent :
    SILValue.stripBorrow (SILValue.stripBorrow
        (SILValue.beginBorrow (SILValue.beginBorrow SILValue.silUndef))) ≠
      SILValue.stripBorrow
        (SILValue.beginBorrow (SILValue.beginBorrow SILValue.silUndef)) ∧
    SILValue.stripExpectIntrinsic (SILValue.stripExpectIntrinsic
        (SILValue.builtinExpect
          (SILValue.builtinExpect SILValue.silUndef SILValue.silUndef)
          SILValue.silUndef)) ≠
      SILValue.stripExpectIntrinsic
        (SILValue.builtinExpect
          (SILValue.builtinExpect SILValue.silUndef SILValue.silUndef)
          SILValue.silUndef) := by
  constructor
  · show SILValue.silUndef ≠ SILValue.beginBorrow SILValue.silUndef
    simp
  · show SILValue.silUndef ≠
      SILValue.builtinExpect SILValue.silUndef SILValue.silUndef
    simp

/-- C7 (amended): every looping strip/canonicalize function of the value
canonicalizer — the cast strippers, the projection and indexing
strippers, `stripUpCasts`, `stripClassCasts`, `stripConvertFunctions`,
`stripSinglePredecessorArgs`, and the `getUnderlyingObject` family — is
idempotent.  The one-shot functions `stripExpectIntrinsic` and
`stripBorrow` are not (see the counterexample): they remove exactly one
layer rather than iterating to a fixed point. -/
theorem C7_strip_functions_idempotent (v : SILValue) :
    SILValue.stripSinglePredecessorArgs (SILValue.stripSinglePredecessorArgs v) =
        SILValue.stripSinglePredecessorArgs v ∧
      SILValue.stripCasts (SILValue.stripCasts v) = SILValue.stripCasts v ∧
      SILValue.stripCastsWithoutMarkDependence
          (SILValue.stripCastsWithoutMarkDependence v) =
        SILValue.stripCastsWithoutMarkDependence v ∧
      SILValue.stripUpCasts (SILValue.stripUpCasts v) = SILValue.stripUpCasts v ∧
      SILValue.stripClassCasts (SILValue.stripClassCasts v) =
        SILValue.stripClassCasts v ∧
      SILValue.stripAddressProjections (SILValue.stripAddressProjections v) =
        SILValue.stripAddressProjections v ∧
      SILValue.stripUnaryAddressProjections
          (SILValue.stripUnaryAddressProjections v) =
        SILValue.stripUnaryAddressProjections v ∧
      SILValue.stripValueProjections (SILValue.stripValueProjections v) =
        SILValue.stripValueProjections v ∧
      SILValue.stripIndexingInsts (SILValue.stripIndexingInsts v) =
        SILValue.stripIndexingInsts v ∧
      SILValue.stripConvertFunctions (SILValue.stripConvertFunctions v) =
        SILValue.stripConvertFunctions v ∧
      SILValue.getUnderlyingObject (SILValue.getUnderlyingObject v) =
        SILValue.getUnderlyingObject v ∧
      SILValue.getUnderlyingObjectStopAtMarkDependence
          (SILValue.getUnderlyingObjectStopAtMarkDependence v) =
        SILValue.getUnderlyingObjectStopAtMarkDependence v ∧
      SILValue.getUnderlyingAddressRoot (SILValue.getUnderlyingAddressRoot v) =
        SILValue.getUnderlyingAddressRoot v :=
  ⟨SILValue.stripSinglePredecessorArgs_idem v,
    SILValue.stripCasts_idem v,
    SILValue.stripCastsWithoutMarkDependence_idem v,
    SILValue.stripUpCasts_idem v,
    SILValue.stripClassCasts_idem v,
    SILValue.stripAddressProjections_idem v,
    SILValue.stripUnaryAddressProjections_idem v,
    SILValue.stripValueProjections_idem v,
    SILValue.stripIndexingInsts_idem v,
    SILValue.stripConvertFunctions_idem v,
    SILValue.getUnderlyingObject_idem v,
    SILValue.getUnderlyingObjectStopAtMarkDependence_idem v,
    SILValue.getUnderlyingAddressRoot_idem v⟩

/-- C8: a value that is the `i`-th argument of a block with exactly one
predecessor is resolved by `stripSinglePredecessorArgs` to the
corresponding operand of that predecessor's terminator — the `i`-th
branch operand for an unconditional branch, or the operand supplied on
the edge to that block for a conditional branch — iterating while the
result is again such a block argument.  A block argument with zero or
several predecessors, or whose predecessor terminator is of any other
kind, and any non-argument value, is returned unchanged. -/
theorem C8_single_predecessor_arg_resolution :
    (∀ (i : Nat) (args : SILValueList) (x : SILValue),
      args.getArg i = some x →
        SILValue.stripSinglePredecessorArgs (SILValue.phiArgBranch i args) =
          SILValue.stripSinglePredecessorArgs x) ∧
    (∀ (i : Nat) (args : SILValueList) (x : SILValue),
      args.getArg i = some x →
        SILValue.stripSinglePredecessorArgs (SILValue.phiArgCondBranch i args) =
          SILValue.stripSinglePredecessorArgs x) ∧
    (∀ i : Nat, SILValue.stripSinglePredecessorArgs
        (SILValue.phiArgNoSinglePred i) = SILValue.phiArgNoSinglePred i) ∧
    (∀ i : Nat, SILValue.stripSinglePredecessorArgs
        (SILValue.phiArgOtherTerm i) = SILValue.phiArgOtherTerm i) ∧
    (∀ i : Nat, SILValue.stripSinglePredecessorArgs
        (SILValue.phiArgSwitchEnum i) = SILValue.phiArgSwitchEnum i) ∧
    (∀ i : Nat, SILValue.stripSinglePredecessorArgs
        (SILValue.phiArgCondBranchNullArg i) =
        SILValue.phiArgCondBranchNullArg i) ∧
    (∀ x : SILValue, SILValue.singlePredTerminatorArg x = none →
      SILValue.stripSinglePredecessorArgs x = x) := by
  refine ⟨?_, ?_, ?_, ?_, ?_, ?_, ?_⟩
  · intro i args x h
    exact SILValue.stripSinglePredecessorArgs_of_some h
  · intro i args x h
    exact SILValue.stripSinglePredecessorArgs_of_some h
  · intro i
    exact SILValue.stripSinglePredecessorArgs_of_none rfl
  · intro i
    exact SILValue.stripSinglePredecessorArgs_of_none rfl
  · intro i
    exact SILValue.stripSinglePredecessorArgs_of_none rfl
  · intro i
    exact SILValue.stripSinglePredecessorArgs_of_none rfl
  · intro x h
    exact SILValue.stripSinglePredecessorArgs_of_none h

/-- C8 witness: the argument of a block whose sole predecessor branches
`br bb(undef)` resolves to that branch operand, and a two-predecessor
block argument is unchanged. -/
theorem C8_witness :
    SILValue.stripSinglePredecessorArgs
        (SILValue.phiArgBranch 0
          (SILValueList.cons SILValue.silUndef SILValueList.nil)) =
      SILValue.silUndef ∧
    SILValue.stripSinglePredecessorArgs (SILValue.phiArgNoSinglePred 0) =
      SILValue.phiArgNoSinglePred 0 := by
  constructor
  · rw [C8_single_predecessor_arg_resolution.1 0
      (SILValueList.cons SILValue.silUndef SILValueList.nil) SILValue.silUndef rfl]
    exact C8_single_predecessor_arg_resolution.2.2.2.2.2.2 SILValue.silUndef rfl
  · exact C8_single_predecessor_arg_resolution.2.2.1 0

/-- C9: every strip/canonicalize function and `findAccessedAddressBase`
terminate on the (finite, acyclic) value tree, with the iteration bounded
by the size of the input: the fuel-bounded transcriptions of the
`getUnderlyingObject` and `findAccessedAddressBase` loops reach their
answer within `sizeOf V + 1` iterations, and every strip function's
result consumes edges (its size never exceeds the input's), because each
inductive step descends to an operand. -/
theorem C9_termination_bounded_by_depth (V : SILValue) :
    SILValue.getUnderlyingObjectFuel (sizeOf V + 1) V =
        some (SILValue.getUnderlyingObject V) ∧
      SILValue.findAccessedAddressBaseFuel (sizeOf V + 1) V =
        some (SILValue.findAccessedAddressBase V) ∧
      sizeOf (SILValue.stripSinglePredecessorArgs V) ≤ sizeOf V ∧
      sizeOf (SILValue.stripCasts V) ≤ sizeOf V ∧
      sizeOf (SILValue.stripCastsWithoutMarkDependence V) ≤ sizeOf V ∧
      sizeOf (SILValue.stripUpCasts V) ≤ sizeOf V ∧
      sizeOf (SILValue.stripClassCasts V) ≤ sizeOf V ∧
      sizeOf (SILValue.stripAddressProjections V) ≤ sizeOf V ∧
      sizeOf (SILValue.stripUnaryAddressProjections V) ≤ sizeOf V ∧
      sizeOf (SILValue.stripValueProjections V) ≤ sizeOf V ∧
      sizeOf (SILValue.stripIndexingInsts V) ≤ sizeOf V ∧
      sizeOf (SILValue.stripConvertFunctions V) ≤ sizeOf V ∧
      sizeOf (SILValue.stripExpectIntrinsic V) ≤ sizeOf V ∧
      sizeOf (SILValue.stripBorrow V) ≤ sizeOf V ∧
      sizeOf (SILValue.getUnderlyingObject V) ≤ sizeOf V ∧
      sizeOf (SILValue.getUnderlyingObjectStopAtMarkDependence V) ≤ sizeOf V ∧
      sizeOf (SILValue.getUnderlyingAddressRoot V) ≤ sizeOf V :=
  ⟨SILValue.getUnderlyingObjectFuel_complete (sizeOf V + 1) V (by omega),
    SILValue.findAccessedAddressBaseFuel_complete (sizeOf V + 1) V (by omega),
    SILValue.sizeOf_stripSinglePredecessorArgs_le V,
    SILValue.sizeOf_stripCasts_le V,
    SILValue.sizeOf_stripCastsWithoutMarkDependence_le V,
    SILValue.sizeOf_stripUpCasts_le V,
    SILValue.sizeOf_stripClassCasts_le V,
    SILValue.sizeOf_stripAddressProjections_le V,
    SILValue.sizeOf_stripUnaryAddressProjections_le V,
    SILValue.sizeOf_stripValueProjections_le V,
    SILValue.sizeOf_stripIndexingInsts_le V,
    SILValue.sizeOf_stripConvertFunctions_le V,
    SILValue.sizeOf_stripExpectIntrinsic_le V,
    SILValue.sizeOf_stripBorrow_le V,
    SILValue.sizeOf_getUnderlyingObject_le V,
    SILValue.sizeOf_getUnderlyingObjectStopAtMarkDependence_le V,
    SILValue.sizeOf_getUnderlyingAddressRoot_le V⟩

namespace SILValue

theorem appliedArgPreprocess_partialApply
    (callee : Option FunInfo) (args : SILValueList)
    (rep : FunctionRep) (rc : Bool) (hrep : rep ≠ FunctionRep.block) :
    appliedArgPreprocess
        (partialApply callee args (SILTypeInfo.functionType rep rc)) =
      AppliedArgPre.proceed
        (partialApply callee args (SILTypeInfo.functionType rep rc)) := by
  have hs : stripConvertFunctions
      (partialApply callee args (SILTypeInfo.functionType rep rc)) =
      partialApply callee args (SILTypeInfo.functionType rep rc) :=
    stripConvertFunctions_of_none rfl
  simp [appliedArgPreprocess, stripBorrow, getType,
    SILTypeInfo.getOptionalObjectType, appliedArgAfterOptional,
    SILTypeInfo.functionRep, hrep, hs]

theorem stripBorrow_of_functionType {V : SILValue} {rep : FunctionRep} {rc : Bool}
    (hty : getType V = SILTypeInfo.functionType rep rc) : stripBorrow V = V := by
  cases V <;> simp_all [stripBorrow, getType]

end SILValue

/-- C5: a `partial_apply` passed directly as a call argument (of non-block
function type, not recognized as a reabstraction thunk) resolves to itself
with the via-thunk flag false.  A `partial_apply` whose callee is flagged
as a reabstraction thunk and whose sole argument is a reference-counted
closure-typed value `c` makes `findClosureForAppliedArg` recurse on `c`
and force the via-thunk flag to true; in particular, when `c` resolves
directly the result is `(c, true)`. -/
theorem C5_closure_resolution :
    (∀ (callee : Option FunInfo) (args : SILValueList)
        (rep : FunctionRep) (rc : Bool),
      rep ≠ FunctionRep.block →
      SILValue.isPartialApplyOfReabstractionThunk
          (SILValue.partialApply callee args
            (SILTypeInfo.functionType rep rc)) = none →
      SILValue.findClosureForAppliedArg
          (SILValue.partialApply callee args
            (SILTypeInfo.functionType rep rc)) =
        FindClosureOutcome.ok
          (some (SILValue.partialApply callee args
            (SILTypeInfo.functionType rep rc))) false) ∧
    (∀ (thunkFn : FunInfo) (c : SILValue) (rep : FunctionRep) (rc : Bool),
      rep ≠ FunctionRep.block →
      thunkFn.thunkKind = ThunkKind.reabstractionThunk →
      ((SILValue.getType c).isFunctionType &&
        (SILValue.getType c).isReferenceCounted) = true →
      SILValue.findClosureForAppliedArg
          (SILValue.partialApply (some thunkFn)
            (SILValueList.cons c SILValueList.nil)
            (SILTypeInfo.functionType rep rc)) =
        (match SILValue.findClosureForAppliedArg c with
          | FindClosureOutcome.ok pai _ => FindClosureOutcome.ok pai true
          | FindClosureOutcome.fatal => FindClosureOutcome.fatal)) ∧
    (∀ (thunkFn : FunInfo) (c : SILValue) (rep : FunctionRep) (rc : Bool),
      rep ≠ FunctionRep.block →
      thunkFn.thunkKind = ThunkKind.reabstractionThunk →
      ((SILValue.getType c).isFunctionType &&
        (SILValue.getType c).isReferenceCounted) = true →
      SILValue.findClosureForAppliedArg c =
        FindClosureOutcome.ok (some c) false →
      SILValue.findClosureForAppliedArg
          (SILValue.partialApply (some thunkFn)
            (SILValueList.cons c SILValueList.nil)
            (SILTypeInfo.functionType rep rc)) =
        FindClosureOutcome.ok (some c) true) := by
  have hb : ∀ (thunkFn : FunInfo) (c : SILValue) (rep : FunctionRep) (rc : Bool),
      rep ≠ FunctionRep.block →
      thunkFn.thunkKind = ThunkKind.reabstractionThunk →
      ((SILValue.getType c).isFunctionType &&
        (SILValue.getType c).isReferenceCounted) = true →
      SILValue.findClosureForAppliedArg
          (SILValue.partialApply (some thunkFn)
            (SILValueList.cons c SILValueList.nil)
            (SILTypeInfo.functionType rep rc)) =
        (match SILValue.findClosureForAppliedArg c with
          | FindClosureOutcome.ok pai _ => FindClosureOutcome.ok pai true
          | FindClosureOutcome.fatal => FindClosureOutcome.fatal) := by
    intro thunkFn c rep rc hrep hthunk hc
    have ht : SILValue.isPartialApplyOfReabstractionThunk
        (SILValue.partialApply (some thunkFn)
          (SILValueList.cons c SILValueList.nil)
          (SILTypeInfo.functionType rep rc)) = some c := by
      simp [SILValue.isPartialApplyOfReabstractionThunk, SILValueList.length,
        SILValueList.getArg, hthunk, hc]
    exact SILValue.findClosureForAppliedArg_of_proceed_thunk
      (SILValue.appliedArgPreprocess_partialApply (some thunkFn)
        (SILValueList.cons c SILValueList.nil) rep rc hrep) rfl ht
  refine ⟨?_, hb, ?_⟩
  · intro callee args rep rc hrep ht
    exact SILValue.findClosureForAppliedArg_of_proceed_direct
      (SILValue.appliedArgPreprocess_partialApply callee args rep rc hrep) rfl ht
  · intro thunkFn c rep rc hrep hthunk hc hdirect
    rw [hb thunkFn c rep rc hrep hthunk hc, hdirect]

/-- C5 witness: a concrete direct `partial_apply` resolves to itself with
the flag false, and a concrete reabstraction-thunk `partial_apply`
wrapping it resolves to the inner closure with the flag true. -/
theorem C5_witness :
    SILValue.findClosureForAppliedArg
        (SILValue.partialApply (some ⟨ThunkKind.notThunk⟩)
          (SILValueList.cons SILValue.silUndef SILValueList.nil)
          (SILTypeInfo.functionType FunctionRep.thick true)) =
      FindClosureOutcome.ok
        (some (SILValue.partialApply (some ⟨ThunkKind.notThunk⟩)
          (SILValueList.cons SILValue.silUndef SILValueList.nil)
          (SILTypeInfo.functionType FunctionRep.thick true))) false ∧
    SILValue.findClosureForAppliedArg
        (SILValue.partialApply (some ⟨ThunkKind.reabstractionThunk⟩)
          (SILValueList.cons
            (SILValue.partialApply (some ⟨ThunkKind.notThunk⟩)
              (SILValueList.cons SILValue.silUndef SILValueList.nil)
              (SILTypeInfo.functionType FunctionRep.thick true))
            SILValueList.nil)
          (SILTypeInfo.functionType FunctionRep.thick false)) =
      FindClosureOutcome.ok
        (some (SILValue.partialApply (some ⟨ThunkKind.notThunk⟩)
          (SILValueList.cons SILValue.silUndef SILValueList.nil)
          (SILTypeInfo.functionType FunctionRep.thick true))) true := by
  have h1 := C5_closure_resolution.1 (some ⟨ThunkKind.notThunk⟩)
    (SILValueList.cons SILValue.silUndef SILValueList.nil)
    FunctionRep.thick true (by decide) rfl
  refine ⟨h1, ?_⟩
  exact C5_closure_resolution.2.2 ⟨ThunkKind.reabstractionThunk⟩
    (SILValue.partialApply (some ⟨ThunkKind.notThunk⟩)
      (SILValueList.cons SILValue.silUndef SILValueList.nil)
      (SILTypeInfo.functionType FunctionRep.thick true))
    FunctionRep.thick false (by decide) rfl (by decide) h1

/-- C6, counterexample: on a block-representation value whose
`init_block_storage_header` is found but whose storage projection is
missing, `findClosureForAppliedArg` does not return the recoverable
"none" — the source asserts (fatal). -/
theorem C6_counterexample_assert_not_none :
    SILValue.findClosureForAppliedArg
        (SILValue.initBlockStorageNoProj SILValue.silUndef
          (SILTypeInfo.functionType FunctionRep.block false)) =
      FindClosureOutcome.fatal ∧
    FindClosureOutcome.fatal ≠ FindClosureOutcome.ok none false := by
  refine ⟨SILValue.findClosureForAppliedArg_of_fatalPre rfl, by simp⟩

/-- C6 (amended): for a value of block-representation callable type,
`findClosureForAppliedArg` returns the recoverable "none" result exactly
when no `init_block_storage_header` is found behind the block-copy
wrappers; when the header is found but the storage-projection / store
pattern (or the store's source) is missing, the source fails its
assertions instead of returning "none". -/
theorem C6_block_representation_outcomes (V : SILValue) (rc : Bool)
    (hty : SILValue.getType V =
      SILTypeInfo.functionType FunctionRep.block rc) :
    (SILValue.findClosureStoredIntoBlock V = BlockClosureLookup.notFound →
      SILValue.findClosureForAppliedArg V = FindClosureOutcome.ok none false) ∧
    (SILValue.findClosureStoredIntoBlock V = BlockClosureLookup.assertFail →
      SILValue.findClosureForAppliedArg V = FindClosureOutcome.fatal) := by
  have hb := SILValue.stripBorrow_of_functionType hty
  constructor
  · intro hlk
    have hpre : SILValue.appliedArgPreprocess V = SILValue.AppliedArgPre.noneEarly := by
      simp [SILValue.appliedArgPreprocess, hb, hty,
        SILTypeInfo.getOptionalObjectType, SILValue.appliedArgAfterOptional,
        SILTypeInfo.functionRep, hlk]
    exact SILValue.findClosureForAppliedArg_of_noneEarly hpre
  · intro hlk
    have hpre : SILValue.appliedArgPreprocess V = SILValue.AppliedArgPre.fatalPre := by
      simp [SILValue.appliedArgPreprocess, hb, hty,
        SILTypeInfo.getOptionalObjectType, SILValue.appliedArgAfterOptional,
        SILTypeInfo.functionRep, hlk]
    exact SILValue.findClosureForAppliedArg_of_fatalPre hpre

/-- C6 witness: a block-representation value with no
`init_block_storage_header` behind a `copy_block` resolves to the
recoverable "none", and one whose header lacks its single store fails the
assertion. -/
theorem C6_witness :
    SILValue.findClosureForAppliedArg
        (SILValue.copyBlock SILValue.silUndef
          (SILTypeInfo.functionType FunctionRep.block false)) =
      FindClosureOutcome.ok none false ∧
    SILValue.findClosureForAppliedArg
        (SILValue.initBlockStorageNoStore SILValue.silUndef
          (SILTypeInfo.functionType FunctionRep.block true)) =
      FindClosureOutcome.fatal :=
  ⟨(C6_block_representation_outcomes
      (SILValue.copyBlock SILValue.silUndef
        (SILTypeInfo.functionType FunctionRep.block false)) false rfl).1 rfl,
    (C6_block_representation_outcomes
      (SILValue.initBlockStorageNoStore SILValue.silUndef
        (SILTypeInfo.functionType FunctionRep.block true)) true rfl).2 rfl⟩
